import Mathlib

/-!
Verification of the loop-scheduling simulator.

The development embeds the simulator engine (`src/simulator/simulator.py`)
and the scheduling policies (`src/simulator/schedulers.py`) as pure Lean
functions and proves the specified properties about them.

Modelling conventions:
* Task loads are integers (the repository's examples and tests use integer
  loads throughout).
* The python `heapq` min-heap of `(finish_time, resource_id)` pairs is
  modelled as a list kept sorted by the lexicographic order `pairLe`;
  `heappop` is taking the head, `heappush` is ordered insertion.  This is
  observationally identical to a binary min-heap over distinct entries.
* A policy is a state machine: a state type `σ` together with
  `query : σ → Nat → List Nat × σ` returning the batch of task indices and
  the successor state.
* The engine returns `Option (List Int × Int × Int × Int)`:
  `some (mapping, makespan, requests, contiguity_changes)` for a run that
  reaches the final `return`, where an assignment conflict yields exactly
  the sentinel `some ([], -1, -1, -1)`; `none` models a python runtime
  error (out-of-range list index, or `time` being referenced without a
  single loop iteration having happened).
* The engine additionally records a trace: for every loop iteration the
  heap contents at the pop, the popped pair and the batch the policy
  returned.  The returned result is the exact translation of the python
  code; the trace only observes it.
-/

/-- One iteration of the engine loop: the heap at the moment of the pop,
the popped `(time, resource)` pair and the batch returned by the policy. -/
structure SimStep where
  pool : List (Int × Nat)
  time : Int
  res : Nat
  batch : List Nat
deriving Repr, DecidableEq

/-- Lexicographic order on `(finish_time, resource_id)` pairs, exactly the
tuple comparison python's `heapq` uses. -/
def pairLe (a b : Int × Nat) : Prop :=
  a.1 < b.1 ∨ (a.1 = b.1 ∧ a.2 ≤ b.2)

instance : DecidableRel pairLe := fun a b =>
  decidable_of_iff (a.1 < b.1 ∨ (a.1 = b.1 ∧ a.2 ≤ b.2)) Iff.rfl

instance : IsTotal (Int × Nat) pairLe :=
  ⟨fun a b => by unfold pairLe; omega⟩

instance : IsTrans (Int × Nat) pairLe :=
  ⟨fun a b c => by unfold pairLe; omega⟩

/-- Count of the resource changes between contiguous tasks
(the final `for` loop of `simulate`). -/
def contigChanges : List Int → Nat
  | a :: b :: rest => (if a = b then 0 else 1) + contigChanges (b :: rest)
  | _ => 0

/-- The two ways the inner `for task_id in new_tasks` loop can fail:
the explicit double-assignment check, or a python `IndexError`. -/
inductive AssignError where
  | conflict
  | outOfRange
deriving Repr, DecidableEq

/-- The body of `for task_id in new_tasks` in `simulate`: walk the batch,
abort on a task that is already mapped, otherwise record the mapping and
accumulate the load into `extra`. -/
def assignBatch (tasks : List Int) (resId : Nat) :
    List Nat → List Int → Int → Except AssignError (List Int × Int)
  | [], mapping, extra => Except.ok (mapping, extra)
  | t :: rest, mapping, extra =>
    if t < mapping.length then
      if mapping.getD t 0 = -1 then
        assignBatch tasks resId rest (mapping.set t (resId : Int))
          (extra + tasks.getD t 0)
      else Except.error AssignError.conflict
    else Except.error AssignError.outOfRange

/-- Number of still-unassigned (sentinel `-1`) entries of the mapping;
used as (part of) the termination measure of the engine loop. -/
def sentinelCount (mapping : List Int) : Nat :=
  mapping.countP (fun v => v == -1)

theorem natCast_ne_neg_one (n : Nat) : (n : Int) ≠ -1 := by omega

theorem sentinelCount_set_le (m : List Int) (t : Nat) (r : Int) (hr : r ≠ -1) :
    sentinelCount (m.set t r) ≤ sentinelCount m := by
  induction m generalizing t with
  | nil => simp [sentinelCount]
  | cons a tl ih =>
    cases t with
    | zero =>
      simp only [List.set, sentinelCount, List.countP_cons]
      have : (r == -1) = false := by simp [hr]
      simp [this]
    | succ n =>
      simp only [List.set, sentinelCount, List.countP_cons]
      have := ih n
      simp only [sentinelCount] at this
      omega

theorem sentinelCount_set_lt (m : List Int) (t : Nat) (r : Int) (hr : r ≠ -1)
    (ht : t < m.length) (hm : m.getD t 0 = -1) :
    sentinelCount (m.set t r) < sentinelCount m := by
  induction m generalizing t with
  | nil => simp at ht
  | cons a tl ih =>
    cases t with
    | zero =>
      simp only [List.getD_cons_zero] at hm
      simp only [List.set, sentinelCount, List.countP_cons]
      have h1 : (r == -1) = false := by simp [hr]
      have h2 : (a == -1) = true := by simp [hm]
      simp [h1, h2]
    | succ n =>
      simp only [List.getD_cons_succ] at hm
      simp only [List.length_cons, Nat.succ_lt_succ_iff] at ht
      simp only [List.set, sentinelCount, List.countP_cons]
      have := ih n ht hm
      simp only [sentinelCount] at this
      omega

theorem assignBatch_ok_le (tasks : List Int) (resId : Nat) (batch : List Nat)
    (m : List Int) (e : Int) (m2 : List Int) (x : Int)
    (h : assignBatch tasks resId batch m e = Except.ok (m2, x)) :
    sentinelCount m2 ≤ sentinelCount m := by
  induction batch generalizing m e with
  | nil =>
    simp only [assignBatch, Except.ok.injEq, Prod.mk.injEq] at h
    rw [← h.1]
  | cons t rest ih =>
    simp only [assignBatch] at h
    split at h
    · split at h
      · exact le_trans (ih _ _ h)
          (sentinelCount_set_le m t _ (natCast_ne_neg_one resId))
      · exact absurd h (by simp)
    · exact absurd h (by simp)

theorem assignBatch_ok_lt (tasks : List Int) (resId : Nat) (batch : List Nat)
    (m : List Int) (e : Int) (m2 : List Int) (x : Int)
    (hb : batch ≠ []) (h : assignBatch tasks resId batch m e = Except.ok (m2, x)) :
    sentinelCount m2 < sentinelCount m := by
  cases batch with
  | nil => exact absurd rfl hb
  | cons t rest =>
    simp only [assignBatch] at h
    split at h
    · next ht =>
      split at h
      · next hm =>
        exact lt_of_le_of_lt (assignBatch_ok_le _ _ _ _ _ _ _ h)
          (sentinelCount_set_lt m t _ (natCast_ne_neg_one resId) ht hm)
      · exact absurd h (by simp)
    · exact absurd h (by simp)

/-- The engine loop of `simulate` (the `while resources:` loop together
with the final bookkeeping).  Arguments after `query`: the heap, the
mapping, the successful-request counter, the last popped time (`none`
before the first pop) and the policy state.  Returns the recorded trace
and the result of the python function. -/
def simLoop {σ : Type} (tasks : List Int) (query : σ → Nat → List Nat × σ) :
    List (Int × Nat) → List Int → Nat → Option Int → σ →
      List SimStep × Option (List Int × Int × Int × Int)
  | [], mapping, requests, lastTime, _ =>
    ([], match lastTime with
         | none => none
         | some t => some (mapping, t, (requests : Int), (contigChanges mapping : Int)))
  | (time, resId) :: rest, mapping, requests, _lastTime, s =>
    match query s resId with
    | (batch, s2) =>
      if hb : batch = [] then
        let r := simLoop tasks query rest mapping requests (some time) s2
        (⟨(time, resId) :: rest, time, resId, batch⟩ :: r.1, r.2)
      else
        match hassign : assignBatch tasks resId batch mapping 0 with
        | Except.error AssignError.conflict =>
          ([⟨(time, resId) :: rest, time, resId, batch⟩], some ([], -1, -1, -1))
        | Except.error AssignError.outOfRange =>
          ([⟨(time, resId) :: rest, time, resId, batch⟩], none)
        | Except.ok (mapping2, extra) =>
          let r := simLoop tasks query
            (List.orderedInsert pairLe (time + extra, resId) rest)
            mapping2 (requests + 1) (some time) s2
          (⟨(time, resId) :: rest, time, resId, batch⟩ :: r.1, r.2)
termination_by pool mapping _ _ _ => sentinelCount mapping + pool.length
decreasing_by
  · simp only [List.length_cons]
    omega
  · have := assignBatch_ok_lt tasks resId batch mapping 0 mapping2 extra hb hassign
    rw [List.orderedInsert_length]
    simp only [List.length_cons]
    omega

/-- Initial heap: `[(0, i) for i in range(num_resources)]`. -/
def initPool (numResources : Nat) : List (Int × Nat) :=
  (List.range numResources).map (fun i => ((0 : Int), i))

/-- The engine with its initial state, keeping both trace and result. -/
def simulateRun {σ : Type} (tasks : List Int) (numResources : Nat)
    (query : σ → Nat → List Nat × σ) (s0 : σ) :
    List SimStep × Option (List Int × Int × Int × Int) :=
  simLoop tasks query (initPool numResources)
    (List.replicate tasks.length (-1)) 0 none s0

/-- `simulate(tasks, num_resources, scheduler)` from
`src/simulator/simulator.py`. -/
def simulate {σ : Type} (tasks : List Int) (numResources : Nat)
    (query : σ → Nat → List Nat × σ) (s0 : σ) :
    Option (List Int × Int × Int × Int) :=
  (simulateRun tasks numResources query s0).2

/-- The sequence of engine-loop iterations of a run of `simulate`. -/
def simTrace {σ : Type} (tasks : List Int) (numResources : Nat)
    (query : σ → Nat → List Nat × σ) (s0 : σ) : List SimStep :=
  (simulateRun tasks numResources query s0).1

/-- The base `Scheduler.query` of `src/simulator/schedulers.py`: always
returns the empty list and keeps no state. -/
def schedulerQuery (s : Unit) (_resourceId : Nat) : List Nat × Unit := ([], s)

/-- The compact-mapping branch of `OpenMPStatic.__init__` (chunk size 0):
iterate over the resources handing each a contiguous group of tasks, the
first `leftover` groups one task larger.  Arguments: the partition size,
the number of resources still to serve, the next task id, the remaining
leftover count. -/
def compactGroups (partitionSize : Nat) : Nat → Nat → Nat → List (List Nat)
  | 0, _, _ => []
  | numLeft + 1, task, leftover =>
    let groupSize := if 0 < leftover then partitionSize + 1 else partitionSize
    (List.range groupSize).map (fun i => task + i) ::
      compactGroups partitionSize numLeft (task + groupSize) (leftover - 1)

/-- One iteration of the round-robin branch of `OpenMPStatic.__init__`:
append the task to the current resource's list and, once the chunk is
full, move to the next resource. -/
def rrStep (numResources chunkSize : Nat) (st : List (List Nat) × Nat × Nat)
    (task : Nat) : List (List Nat) × Nat × Nat :=
  let schedule := st.1
  let resource := st.2.1
  let counter := st.2.2 + 1
  let schedule2 := schedule.set resource (schedule.getD resource [] ++ [task])
  if counter = chunkSize then (schedule2, (resource + 1) % numResources, 0)
  else (schedule2, resource, counter)

/-- `OpenMPStatic.__init__`: precompute the per-resource schedule, compact
when the chunk size is 0, round-robin by chunks otherwise. -/
def openMPStaticInit (tasks : List Int) (numResources : Nat) (chunkSize : Nat) :
    List (List Nat) :=
  if chunkSize = 0 then
    compactGroups (tasks.length / numResources) numResources 0
      (tasks.length % numResources)
  else
    ((List.range tasks.length).foldl (rrStep numResources chunkSize)
      (List.replicate numResources [], 0, 0)).1

/-- `OpenMPStatic.query` (and the identical `RecursiveBipartition.query`):
hand the precomputed list out once, emptying the stored entry. -/
def staticQuery (schedule : List (List Nat)) (resourceId : Nat) :
    List Nat × List (List Nat) :=
  let tasks := schedule.getD resourceId []
  if tasks = [] then (tasks, schedule) else (tasks, schedule.set resourceId [])

/-- Descending lexicographic comparison of `(load, index)` pairs:
`a` comes before `b` in a python `sort(reverse=True)`. -/
def pairGe (a b : Int × Nat) : Prop :=
  b.1 < a.1 ∨ (b.1 = a.1 ∧ b.2 ≤ a.2)

instance : DecidableRel pairGe := fun a b =>
  decidable_of_iff (b.1 < a.1 ∨ (b.1 = a.1 ∧ b.2 ≤ a.2)) Iff.rfl

instance : IsTotal (Int × Nat) pairGe :=
  ⟨fun a b => by unfold pairGe; omega⟩

instance : IsTrans (Int × Nat) pairGe :=
  ⟨fun a b c => by unfold pairGe; omega⟩

/-- `LPT.__init__`: build the `(load, index)` pairs and sort them in
descending whole-tuple order (`tasks_by_priority.sort(reverse=True)`). -/
def lptInit (tasks : List Int) : List (Int × Nat) :=
  List.insertionSort pairGe
    ((List.range tasks.length).map (fun i => (tasks.getD i 0, i)))

/-- `LPT.query`: pop the front pair and return its task id, ignoring the
querying resource; empty once the order is exhausted. -/
def lptQuery (st : List (Int × Nat)) (_resourceId : Nat) :
    List Nat × List (Int × Nat) :=
  match st with
  | [] => ([], [])
  | (_load, taskId) :: rest => ([taskId], rest)

/-- Modelled from the spec: the body of `OpenMPDynamic.query` is missing
from the source (`# TODO` in `src/simulator/schedulers.py`; only its
interface, docstring and unit tests exist).  Spec, Global-Queue Dynamic:
one shared forward pointer into the original task order starting at 0;
each query consumes `min(c, remaining)` tasks starting at the pointer,
advances the pointer by that amount and returns them; once the pointer
reaches `N`, returns empty.  The state is the pointer. -/
def dynamicQuery (numTasks chunkSize : Nat) (pointer : Nat) (_resourceId : Nat) :
    List Nat × Nat :=
  let k := min chunkSize (numTasks - pointer)
  ((List.range k).map (fun i => pointer + i), pointer + k)

/-- Simulation with an `OpenMPStatic` scheduler. -/
def simulateStatic (tasks : List Int) (numResources chunkSize : Nat) :
    Option (List Int × Int × Int × Int) :=
  simulate tasks numResources staticQuery
    (openMPStaticInit tasks numResources chunkSize)

/-- Simulation with an `LPT` scheduler. -/
def simulateLPT (tasks : List Int) (numResources : Nat) :
    Option (List Int × Int × Int × Int) :=
  simulate tasks numResources lptQuery (lptInit tasks)

/-- Simulation with the spec-modelled `OpenMPDynamic` scheduler. -/
def simulateDynamic (tasks : List Int) (numResources chunkSize : Nat) :
    Option (List Int × Int × Int × Int) :=
  simulate tasks numResources (dynamicQuery tasks.length chunkSize) 0

/-- C7: for loads [2,4,6,8,5,3,9,2,4,6] and 3 resources, the Global-Queue
Dynamic policy with chunk size 1 yields the mapping [0,1,2,0,1,2,1,2,0,2],
makespan 18, 10 successful queries and 9 contiguity changes. -/
theorem C7_dynamic_chunk1_scenario :
    simulateDynamic [2, 4, 6, 8, 5, 3, 9, 2, 4, 6] 3 1 =
      some ([0, 1, 2, 0, 1, 2, 1, 2, 0, 2], 18, 10, 9) := by
  simp only [simulateDynamic, simulate, simulateRun, initPool]
  norm_num [List.range_succ]
  simp [simLoop.eq_def, dynamicQuery, assignBatch, contigChanges,
    List.orderedInsert, pairLe]

/-- C3 counterexample: with the base `Scheduler` policy (whose `query`
always returns the empty list) on one task and one resource, `simulate`
returns normally (not the failure sentinel) yet the returned mapping still
holds the unassigned sentinel `-1` at task index 0. -/
theorem C3_counterexample_base_scheduler :
    simulate [(1 : Int)] 1 schedulerQuery () = some ([-1], 0, 0, 0) ∧
      (some ([(-1 : Int)], (0 : Int), (0 : Int), (0 : Int)) ≠
        some (([] : List Int), (-1 : Int), (-1 : Int), (-1 : Int))) ∧
      ([(-1 : Int)]).getD 0 0 = -1 := by
  refine ⟨?_, by simp, by simp⟩
  simp only [simulate, simulateRun, initPool]
  norm_num [List.range_succ]
  simp [simLoop.eq_def, schedulerQuery, contigChanges]

/-- C4 counterexample: with a single task and three resources both static
variants perform exactly one successful query, not three: the two
resources whose precomputed lists are empty retire on their first query
without being counted. -/
theorem C4_counterexample_single_task :
    simulateStatic [(5 : Int)] 3 0 = some ([0], 5, 1, 0) ∧
      simulateStatic [(5 : Int)] 3 1 = some ([0], 5, 1, 0) ∧ (1 : Int) ≠ 3 := by
  refine ⟨?_, ?_, by decide⟩ <;>
  · simp only [simulateStatic, simulate, simulateRun, initPool, openMPStaticInit]
    norm_num [List.range_succ]
    simp [simLoop.eq_def, staticQuery, compactGroups, rrStep, assignBatch,
      contigChanges, List.orderedInsert, pairLe]

/-- A run in which the policy answers every query with the empty list (and
keeps its state) retires the resources one by one: the mapping and counter
are untouched and the makespan is the time of the last heap entry. -/
theorem simLoop_all_empty {σ : Type} (tasks : List Int)
    (query : σ → Nat → List Nat × σ) (s : σ) (hq : ∀ r, query s r = ([], s)) :
    ∀ (pool : List (Int × Nat)) (mapping : List Int) (req : Nat) (lt : Option Int),
      (simLoop tasks query pool mapping req lt s).2 =
        match pool.getLast? with
        | some p => some (mapping, p.1, (req : Int), (contigChanges mapping : Int))
        | none =>
          match lt with
          | some t => some (mapping, t, (req : Int), (contigChanges mapping : Int))
          | none => none := by
  intro pool
  induction pool with
  | nil => intro mapping req lt; cases lt <;> simp [simLoop.eq_def]
  | cons hd rest ih =>
    intro mapping req lt
    obtain ⟨time, resId⟩ := hd
    rw [simLoop.eq_def]
    simp only [hq resId]
    cases rest with
    | nil => simp [ih, List.getLast?]
    | cons b l => simpa [List.getLast?_cons_cons] using ih mapping req (some time)

theorem getD_eq_nil_of_forall_nil (st : List (List Nat)) (r : Nat)
    (h : ∀ l ∈ st, l = []) : st.getD r [] = [] := by
  induction st generalizing r with
  | nil => simp
  | cons a tl ih =>
    cases r with
    | zero => simpa using h a (by simp)
    | succ n => simpa using ih n (fun l hl => h l (by simp [hl]))

theorem staticQuery_of_all_nil (st : List (List Nat)) (h : ∀ l ∈ st, l = []) :
    ∀ r, staticQuery st r = ([], st) := by
  intro r
  have hD := getD_eq_nil_of_forall_nil st r h
  simp only [List.getD_eq_getElem?_getD] at hD
  simp [staticQuery, hD]

theorem compactGroups_zero_all_nil :
    ∀ (k task : Nat), ∀ l ∈ compactGroups 0 k task 0, l = [] := by
  intro k
  induction k with
  | zero => simp [compactGroups]
  | succ n ih =>
    intro task l hl
    simp only [compactGroups, Nat.lt_irrefl, if_false, List.range_zero,
      List.map_nil, List.mem_cons] at hl
    rcases hl with h | h
    · exact h
    · exact ih _ l h

theorem openMPStaticInit_nil_all_nil (R chunk : Nat) :
    ∀ l ∈ openMPStaticInit [] R chunk, l = [] := by
  by_cases hc : chunk = 0
  · subst hc
    simpa [openMPStaticInit] using compactGroups_zero_all_nil R 0
  · intro l hl
    simp only [openMPStaticInit, hc, if_false, List.length_nil, List.range_zero,
      List.foldl_nil] at hl
    exact List.eq_of_mem_replicate hl

theorem getLast?_time_zero (pool : List (Int × Nat)) (hne : pool ≠ [])
    (h0 : ∀ e ∈ pool, e.1 = 0) : ∃ p, pool.getLast? = some p ∧ p.1 = 0 := by
  induction pool with
  | nil => exact absurd rfl hne
  | cons a rest ih =>
    cases rest with
    | nil => exact ⟨a, by simp [List.getLast?], h0 a (by simp)⟩
    | cons b l =>
      obtain ⟨p, hp, hp0⟩ := ih (by simp) (fun e he => h0 e (by simp [List.mem_cons] at he ⊢; tauto))
      exact ⟨p, by simpa [List.getLast?_cons_cons] using hp, hp0⟩

theorem initPool_ne_nil (R : Nat) (hR : 1 ≤ R) : initPool R ≠ [] := by
  have hlen : (initPool R).length = R := by simp [initPool]
  intro h
  rw [h] at hlen
  simp at hlen
  omega

theorem initPool_time_zero (R : Nat) : ∀ e ∈ initPool R, e.1 = 0 := by
  intro e he
  simp only [initPool, List.mem_map] at he
  obtain ⟨i, _, rfl⟩ := he
  rfl

/-- C9: with an empty task list and any resource count R >= 1, both static
variants (any chunk size) and LPT terminate normally with the exact result
([], 0, 0, 0): every resource is queried once at time 0, answers empty and
retires, so the makespan is 0 and no query is counted. -/
theorem C9_empty_tasks (R chunk : Nat) (hR : 1 ≤ R) :
    simulateStatic [] R chunk = some ([], 0, 0, 0) ∧
      simulateLPT [] R = some ([], 0, 0, 0) := by
  obtain ⟨p, hp, hp0⟩ :=
    getLast?_time_zero (initPool R) (initPool_ne_nil R hR) (initPool_time_zero R)
  constructor
  · have hq := staticQuery_of_all_nil _ (openMPStaticInit_nil_all_nil R chunk)
    simp only [simulateStatic, simulate, simulateRun, List.length_nil,
      List.replicate_zero]
    rw [simLoop_all_empty _ _ _ hq, hp]
    simp [hp0, contigChanges]
  · have hlpt : lptInit [] = [] := by simp [lptInit]
    have hq : ∀ r, lptQuery (lptInit []) r = ([], lptInit []) := by
      intro r; rw [hlpt]; rfl
    simp only [simulateLPT, simulate, simulateRun, List.length_nil,
      List.replicate_zero]
    rw [simLoop_all_empty _ _ _ hq, hp]
    simp [hp0, contigChanges]

theorem C9_empty_tasks_witness :
    simulateStatic [] 2 3 = some ([], 0, 0, 0) ∧
      simulateLPT [] 2 = some ([], 0, 0, 0) :=
  C9_empty_tasks 2 3 (by decide)

/-- Strict priority order of the LPT scheduler on `(load, index)` pairs:
`a` is served strictly before `b` when `a` has the larger load, or equal
loads and the larger original index. -/
def pairGt (a b : Int × Nat) : Prop :=
  b.1 < a.1 ∨ (b.1 = a.1 ∧ b.2 < a.2)

/-- C5: the LPT scheduler's internal list holds exactly the (load, index)
pairs of the input, ordered by non-increasing load with ties among equal
loads broken by larger original index first; each query pops exactly the
single highest-priority remaining task regardless of the querying
resource, and returns empty to every resource once exhausted. -/
theorem C5_lpt_order_and_query (tasks : List Int) :
    (lptInit tasks).Perm
        ((List.range tasks.length).map (fun i => (tasks.getD i 0, i))) ∧
      (lptInit tasks).Pairwise pairGt ∧
      (∀ (st : List (Int × Nat)) (l : Int) (t : Nat) (rest : List (Int × Nat))
          (r : Nat), st = (l, t) :: rest → lptQuery st r = ([t], rest)) ∧
      (∀ r, lptQuery [] r = ([], [])) := by
  have hperm : (lptInit tasks).Perm
      ((List.range tasks.length).map (fun i => (tasks.getD i 0, i))) :=
    List.perm_insertionSort pairGe _
  refine ⟨hperm, ?_, ?_, fun r => rfl⟩
  · have hsorted : (lptInit tasks).Pairwise pairGe :=
      List.sorted_insertionSort pairGe _
    have hnd : ((lptInit tasks).map Prod.snd).Nodup := by
      have h2 := (hperm.map Prod.snd).nodup_iff
      rw [h2]
      simp only [List.map_map]
      have : (Prod.snd ∘ fun i => (tasks.getD i 0, i)) = id := by
        funext i; rfl
      rw [this, List.map_id]
      exact List.nodup_range tasks.length
    have hne : (lptInit tasks).Pairwise (fun a b => a.2 ≠ b.2) := by
      unfold List.Nodup at hnd
      rw [List.pairwise_map] at hnd
      exact hnd
    exact (hsorted.and hne).imp (fun h => by
      obtain ⟨h1, h2⟩ := h
      unfold pairGe at h1
      unfold pairGt
      omega)
  · intro st l t rest r hst
    subst hst
    rfl

theorem C5_lpt_witness : lptQuery [((5 : Int), 3)] 0 = ([3], []) :=
  (C5_lpt_order_and_query [2, 1, 2]).2.2.1 [((5 : Int), 3)] 5 3 [] 0 rfl

theorem compactGroups_length (psize : Nat) :
    ∀ (k task leftover : Nat), (compactGroups psize k task leftover).length = k := by
  intro k
  induction k with
  | zero => intro task leftover; rfl
  | succ n ih => intro task leftover; simp [compactGroups, ih]

theorem compactGroups_getD (psize : Nat) :
    ∀ (k task leftover r : Nat), r < k →
      (compactGroups psize k task leftover).getD r [] =
        (List.range (if r < leftover then psize + 1 else psize)).map
          (fun i => task + r * psize + min r leftover + i) := by
  intro k
  induction k with
  | zero => intro task leftover r hr; omega
  | succ n ih =>
    intro task leftover r hr
    cases r with
    | zero =>
      rcases Nat.eq_zero_or_pos leftover with hl | hl
      · subst hl
        simp [compactGroups]
      · simp only [compactGroups, hl, if_true, Nat.zero_lt_succ]
        simp only [List.getD_cons_zero]
        have hmin : min 0 leftover = 0 := Nat.zero_min leftover
        simp [hl, hmin]
    | succ m =>
      have hm : m < n := by omega
      simp only [compactGroups, List.getD_cons_succ]
      rw [ih (task + if 0 < leftover then psize + 1 else psize) (leftover - 1) m hm]
      rcases leftover with _ | l
      · simp only [Nat.lt_irrefl, if_false, Nat.sub_zero]
        have hc : ¬ (m + 1 < 0) := by omega
        have hc2 : ¬ (m < 0) := by omega
        simp only [hc, hc2, if_false]
        apply List.map_congr_left
        intro a _
        simp only [Nat.min_zero, Nat.succ_mul]
        omega
      · simp only [Nat.zero_lt_succ, if_true, Nat.add_sub_cancel]
        by_cases hml : m < l
        · have h1 : m + 1 < l + 1 := by omega
          simp only [hml, h1, if_true]
          apply List.map_congr_left
          intro a _
          simp only [Nat.succ_min_succ, Nat.succ_mul]
          omega
        · have h1 : ¬ (m + 1 < l + 1) := by omega
          simp only [hml, h1, if_false]
          apply List.map_congr_left
          intro a _
          simp only [Nat.succ_min_succ, Nat.succ_mul]
          omega

theorem compactGroups_flatten (psize : Nat) :
    ∀ (k task leftover : Nat), (compactGroups psize k task leftover).flatten =
      (List.range (k * psize + min k leftover)).map (fun i => task + i) := by
  intro k
  induction k with
  | zero => intro task leftover; simp [compactGroups]
  | succ n ih =>
    intro task leftover
    simp only [compactGroups, List.flatten_cons]
    rw [ih]
    have hsize : (n + 1) * psize + min (n + 1) leftover =
        (if 0 < leftover then psize + 1 else psize) +
          (n * psize + min n (leftover - 1)) := by
      rcases leftover with _ | l
      · simp [Nat.succ_mul]; omega
      · simp only [Nat.zero_lt_succ, if_true, Nat.add_sub_cancel,
          Nat.succ_min_succ, Nat.succ_mul]
        omega
    rw [hsize]
    conv_rhs => rw [List.range_add, List.map_append, List.map_map]
    congr 1
    apply List.map_congr_left
    intro a _
    simp only [Function.comp]
    omega

/-- Perform a sequence of `OpenMPStatic.query` calls (their state effect),
one per listed resource id. -/
def applyStaticQueries (st : List (List Nat)) (qs : List Nat) : List (List Nat) :=
  qs.foldl (fun s r => (staticQuery s r).2) st

theorem staticQuery_fst (st : List (List Nat)) (r : Nat) :
    (staticQuery st r).1 = st.getD r [] := by
  simp only [staticQuery]
  split <;> rfl

theorem staticQuery_snd_getD_self (st : List (List Nat)) (r : Nat) :
    (staticQuery st r).2.getD r [] = [] := by
  simp only [staticQuery]
  split
  · next h => exact h
  · next h =>
    rcases Nat.lt_or_ge r st.length with hlt | hge
    · simp [List.getD_eq_getElem?_getD, List.getElem?_set_self', hlt]
    · simp [List.getD_eq_getElem?_getD, List.getElem?_eq_none, hge]

theorem staticQuery_snd_getD_other (st : List (List Nat)) (r r' : Nat)
    (h : r' ≠ r) : (staticQuery st r').2.getD r [] = st.getD r [] := by
  simp only [staticQuery]
  split
  · rfl
  · simp [List.getD_eq_getElem?_getD, List.getElem?_set_ne h]

theorem applyStaticQueries_keeps_nil (st : List (List Nat)) (r : Nat)
    (qs : List Nat) (h : st.getD r [] = []) :
    (applyStaticQueries st qs).getD r [] = [] := by
  induction qs generalizing st with
  | nil => exact h
  | cons q rest ih =>
    simp only [applyStaticQueries, List.foldl_cons]
    by_cases hq : q = r
    · subst hq
      exact ih _ (staticQuery_snd_getD_self st q)
    · exact ih _ (by rw [staticQuery_snd_getD_other st r q hq]; exact h)

theorem applyStaticQueries_mem_nil (st : List (List Nat)) (r : Nat)
    (qs : List Nat) (h : r ∈ qs) :
    (applyStaticQueries st qs).getD r [] = [] := by
  induction qs generalizing st with
  | nil => simp at h
  | cons q rest ih =>
    simp only [applyStaticQueries, List.foldl_cons]
    rcases List.mem_cons.mp h with hq | hq
    · subst hq
      exact applyStaticQueries_keeps_nil _ r rest (staticQuery_snd_getD_self st r)
    · exact ih _ hq

/-- C6: the Contiguous Block (chunk 0) precomputed schedule has one entry
per resource; with base = N / R and extra = N mod R, resource r's entry is
the contiguous run of base + 1 indices (when r < extra) or base indices
starting at r * base + min r extra; the entries concatenate to exactly
0..N-1; a query hands out the full stored run, empties the resource's own
entry without touching the others, and after any sequence of queries that
already contains r, a further query for r returns the empty list. -/
theorem C6_compact_partition (tasks : List Int) (R : Nat) (hR : 1 ≤ R) :
    (openMPStaticInit tasks R 0).length = R ∧
      (∀ r, r < R → (openMPStaticInit tasks R 0).getD r [] =
        (List.range (if r < tasks.length % R then tasks.length / R + 1
            else tasks.length / R)).map
          (fun i => r * (tasks.length / R) + min r (tasks.length % R) + i)) ∧
      (openMPStaticInit tasks R 0).flatten = List.range tasks.length ∧
      (∀ (st : List (List Nat)) (r : Nat), (staticQuery st r).1 = st.getD r []) ∧
      (∀ (st : List (List Nat)) (r : Nat), (staticQuery st r).2.getD r [] = []) ∧
      (∀ (st : List (List Nat)) (r r' : Nat), r' ≠ r →
        (staticQuery st r').2.getD r [] = st.getD r []) ∧
      (∀ (qs : List Nat) (r : Nat), r ∈ qs →
        (staticQuery (applyStaticQueries (openMPStaticInit tasks R 0) qs) r).1 = []) := by
  have hinit : openMPStaticInit tasks R 0 =
      compactGroups (tasks.length / R) R 0 (tasks.length % R) := by
    simp [openMPStaticInit]
  refine ⟨?_, ?_, ?_, staticQuery_fst, staticQuery_snd_getD_self,
    staticQuery_snd_getD_other, ?_⟩
  · rw [hinit]; exact compactGroups_length _ R 0 _
  · intro r hr
    rw [hinit, compactGroups_getD _ R 0 _ r hr]
    apply List.map_congr_left
    intro a _
    omega
  · rw [hinit, compactGroups_flatten]
    have hmin : R * (tasks.length / R) + min R (tasks.length % R) = tasks.length := by
      have hmod : tasks.length % R < R := Nat.mod_lt _ (by omega)
      rw [Nat.min_eq_right (Nat.le_of_lt hmod)]
      exact Nat.div_add_mod tasks.length R
    rw [hmin]
    simp
  · intro qs r hmem
    rw [staticQuery_fst]
    exact applyStaticQueries_mem_nil _ r qs hmem

theorem C6_compact_partition_witness :
    (openMPStaticInit [2, 4, 6, 8, 5] 3 0).getD 0 [] = [0, 1] ∧
      (openMPStaticInit [2, 4, 6, 8, 5] 3 0).flatten = [0, 1, 2, 3, 4] ∧
      (staticQuery (applyStaticQueries (openMPStaticInit [2, 4, 6, 8, 5] 3 0)
        [0, 1]) 1).1 = [] := by
  refine ⟨?_, ?_, ?_⟩
  · have h := (C6_compact_partition [2, 4, 6, 8, 5] 3 (by decide)).2.1 0 (by decide)
    rw [h]
    decide
  · have h := (C6_compact_partition [2, 4, 6, 8, 5] 3 (by decide)).2.2.1
    rw [h]
    decide
  · exact (C6_compact_partition [2, 4, 6, 8, 5] 3 (by decide)).2.2.2.2.2.2
      [0, 1] 1 (by decide)

theorem getD_set_self_int (m : List Int) (t : Nat) (v : Int) (h : t < m.length) :
    (m.set t v).getD t 0 = v := by
  simp [List.getD_eq_getElem?_getD, List.getElem?_set_self', h]

theorem getD_set_ne_int (m : List Int) (t t2 : Nat) (v : Int) (h : t ≠ t2) :
    (m.set t v).getD t2 0 = m.getD t2 0 := by
  simp [List.getD_eq_getElem?_getD, List.getElem?_set_ne h]

theorem assignBatch_conflict_of_assigned (tasks : List Int) (resId : Nat)
    (batch : List Nat) :
    ∀ (m : List Int) (e : Int), (∀ t ∈ batch, t < m.length) →
      (∃ t ∈ batch, m.getD t 0 ≠ -1) →
      assignBatch tasks resId batch m e = Except.error AssignError.conflict := by
  induction batch with
  | nil => intro m e _ hconf; simp at hconf
  | cons t rest ih =>
    intro m e hin hconf
    have ht : t < m.length := hin t (by simp)
    simp only [assignBatch, ht, if_true]
    by_cases hm : m.getD t 0 = -1
    · rw [if_pos hm]
      apply ih
      · intro u hu
        rw [List.length_set]
        exact hin u (by simp [hu])
      · obtain ⟨t0, ht0mem, ht0⟩ := hconf
        rcases List.mem_cons.mp ht0mem with h0 | h0
        · exact absurd (h0 ▸ hm) ht0
        · refine ⟨t0, h0, ?_⟩
          by_cases he : t = t0
          · subst he
            rw [getD_set_self_int m t _ ht]
            exact natCast_ne_neg_one resId
          · rw [getD_set_ne_int m t t0 _ he]
            exact ht0
    · rw [if_neg hm]

/-- C1: from any engine-loop state, if the policy's answer for the popped
resource is a non-empty batch of task indices of which some index is
already assigned in the mapping, the loop aborts at once: the returned
tuple is exactly the sentinel ([], -1, -1, -1) and the trace records only
this single step.  With the initial state this is the abort behaviour of
`simulate` itself. -/
theorem C1_conflict_abort {σ : Type} (tasks : List Int)
    (query : σ → Nat → List Nat × σ) (time : Int) (resId : Nat)
    (rest : List (Int × Nat)) (mapping : List Int) (requests : Nat)
    (lastTime : Option Int) (s : σ)
    (hne : (query s resId).1 ≠ [])
    (hin : ∀ t ∈ (query s resId).1, t < mapping.length)
    (hconf : ∃ t ∈ (query s resId).1, mapping.getD t 0 ≠ -1) :
    simLoop tasks query ((time, resId) :: rest) mapping requests lastTime s =
      ([⟨(time, resId) :: rest, time, resId, (query s resId).1⟩],
        some ([], -1, -1, -1)) := by
  rw [simLoop.eq_def]
  have hassign := assignBatch_conflict_of_assigned tasks resId
    (query s resId).1 mapping 0 hin hconf
  simp only [hne, dite_false]
  split
  · rfl
  · next heq => simp [hassign] at heq
  · next heq => simp [hassign] at heq

theorem C1_conflict_abort_witness :
    simLoop [(1 : Int), 2] (fun (u : Unit) (_ : Nat) => ([0], u))
        [((0 : Int), 0)] [(0 : Int), -1] 0 none () =
      ([⟨[((0 : Int), 0)], 0, 0, [0]⟩], some ([], -1, -1, -1)) :=
  C1_conflict_abort [(1 : Int), 2] (fun (u : Unit) (_ : Nat) => ([0], u))
    0 0 [] [(0 : Int), -1] 0 none ()
    (by decide) (by decide) ⟨0, by decide, by decide⟩

theorem simLoop_nil_none {σ : Type} (tasks : List Int)
    (query : σ → Nat → List Nat × σ) (mapping : List Int) (req : Nat) (s : σ) :
    simLoop tasks query [] mapping req none s = ([], none) := by
  rw [simLoop.eq_def]

theorem simLoop_nil_some {σ : Type} (tasks : List Int)
    (query : σ → Nat → List Nat × σ) (mapping : List Int) (req : Nat)
    (t : Int) (s : σ) :
    simLoop tasks query [] mapping req (some t) s =
      ([], some (mapping, t, (req : Int), (contigChanges mapping : Int))) := by
  rw [simLoop.eq_def]

theorem simLoop_cons_empty {σ : Type} (tasks : List Int)
    (query : σ → Nat → List Nat × σ) (time : Int) (resId : Nat)
    (rest : List (Int × Nat)) (mapping : List Int) (req : Nat)
    (lt : Option Int) (s s2 : σ) (hq : query s resId = ([], s2)) :
    simLoop tasks query ((time, resId) :: rest) mapping req lt s =
      (⟨(time, resId) :: rest, time, resId, []⟩ ::
          (simLoop tasks query rest mapping req (some time) s2).1,
        (simLoop tasks query rest mapping req (some time) s2).2) := by
  rw [simLoop.eq_def]
  simp [hq]

theorem simLoop_cons_conflict {σ : Type} (tasks : List Int)
    (query : σ → Nat → List Nat × σ) (time : Int) (resId : Nat)
    (rest : List (Int × Nat)) (mapping : List Int) (req : Nat)
    (lt : Option Int) (s s2 : σ) (batch : List Nat)
    (hq : query s resId = (batch, s2)) (hb : batch ≠ [])
    (ha : assignBatch tasks resId batch mapping 0 =
      Except.error AssignError.conflict) :
    simLoop tasks query ((time, resId) :: rest) mapping req lt s =
      ([⟨(time, resId) :: rest, time, resId, batch⟩], some ([], -1, -1, -1)) := by
  rw [simLoop.eq_def]
  simp only [hq, hb, dite_false]
  split
  · rfl
  · next heq => simp only [hq] at heq; simp [ha] at heq
  · next heq => simp only [hq] at heq; simp [ha] at heq

theorem simLoop_cons_oob {σ : Type} (tasks : List Int)
    (query : σ → Nat → List Nat × σ) (time : Int) (resId : Nat)
    (rest : List (Int × Nat)) (mapping : List Int) (req : Nat)
    (lt : Option Int) (s s2 : σ) (batch : List Nat)
    (hq : query s resId = (batch, s2)) (hb : batch ≠ [])
    (ha : assignBatch tasks resId batch mapping 0 =
      Except.error AssignError.outOfRange) :
    simLoop tasks query ((time, resId) :: rest) mapping req lt s =
      ([⟨(time, resId) :: rest, time, resId, batch⟩], none) := by
  rw [simLoop.eq_def]
  simp only [hq, hb, dite_false]
  split
  · next heq => simp only [hq] at heq; simp [ha] at heq
  · rfl
  · next heq => simp only [hq] at heq; simp [ha] at heq

theorem simLoop_cons_ok {σ : Type} (tasks : List Int)
    (query : σ → Nat → List Nat × σ) (time : Int) (resId : Nat)
    (rest : List (Int × Nat)) (mapping : List Int) (req : Nat)
    (lt : Option Int) (s s2 : σ) (batch : List Nat)
    (mapping2 : List Int) (extra : Int)
    (hq : query s resId = (batch, s2)) (hb : batch ≠ [])
    (ha : assignBatch tasks resId batch mapping 0 =
      Except.ok (mapping2, extra)) :
    simLoop tasks query ((time, resId) :: rest) mapping req lt s =
      (⟨(time, resId) :: rest, time, resId, batch⟩ ::
          (simLoop tasks query
            (List.orderedInsert pairLe (time + extra, resId) rest)
            mapping2 (req + 1) (some time) s2).1,
        (simLoop tasks query
          (List.orderedInsert pairLe (time + extra, resId) rest)
          mapping2 (req + 1) (some time) s2).2) := by
  rw [simLoop.eq_def]
  simp only [hq, hb, dite_false]
  split
  · next heq => simp only [hq] at heq; simp [ha] at heq
  · next heq => simp only [hq] at heq; simp [ha] at heq
  · next m2 x heq =>
    simp only [hq] at heq
    rw [ha] at heq
    simp only [Except.ok.injEq, Prod.mk.injEq] at heq
    obtain ⟨h1, h2⟩ := heq
    subst h1
    subst h2
    rfl

theorem pairLe_refl (a : Int × Nat) : pairLe a a := by unfold pairLe; omega

theorem mem_map_snd_orderedInsert (x : Int × Nat) (l : List (Int × Nat)) (a : Nat) :
    a ∈ (List.orderedInsert pairLe x l).map Prod.snd ↔
      a = x.2 ∨ a ∈ l.map Prod.snd := by
  rw [((List.perm_orderedInsert pairLe x l).map Prod.snd).mem_iff]
  simp

theorem nodup_map_snd_orderedInsert (x : Int × Nat) (l : List (Int × Nat))
    (h : (x.2 :: l.map Prod.snd).Nodup) :
    ((List.orderedInsert pairLe x l).map Prod.snd).Nodup := by
  rw [((List.perm_orderedInsert pairLe x l).map Prod.snd).nodup_iff]
  simpa using h

/-- Every resource queried during the loop is one of the resources present
in the heap at the start of the loop. -/
theorem simLoop_res_mem {σ : Type} (tasks : List Int)
    (query : σ → Nat → List Nat × σ) :
    ∀ (pool : List (Int × Nat)) (mapping : List Int) (req : Nat)
      (lt : Option Int) (s : σ),
      ∀ e ∈ (simLoop tasks query pool mapping req lt s).1,
        e.res ∈ pool.map Prod.snd := by
  intro pool mapping req lt s
  induction pool, mapping, req, lt, s using simLoop.induct tasks query with
  | case1 mapping req lt s =>
    cases lt <;> simp [simLoop_nil_none, simLoop_nil_some]
  | case2 time resId rest mapping req lt s s2 hq ih =>
    rw [simLoop_cons_empty tasks query time resId rest mapping req lt s s2 hq]
    intro e he
    rcases List.mem_cons.mp he with h | h
    · subst h; simp
    · simpa using Or.inr (ih e h)
  | case3 time resId rest mapping req lt s batch s2 hq hb ha =>
    rw [simLoop_cons_conflict tasks query time resId rest mapping req lt s s2
      batch hq hb ha]
    intro e he
    rcases List.mem_cons.mp he with h | h
    · subst h; simp
    · simp at h
  | case4 time resId rest mapping req lt s batch s2 hq hb ha =>
    rw [simLoop_cons_oob tasks query time resId rest mapping req lt s s2
      batch hq hb ha]
    intro e he
    rcases List.mem_cons.mp he with h | h
    · subst h; simp
    · simp at h
  | case5 time resId rest mapping req lt s batch s2 hq hb mapping2 extra ha ih =>
    rw [simLoop_cons_ok tasks query time resId rest mapping req lt s s2 batch
      mapping2 extra hq hb ha]
    intro e he
    rcases List.mem_cons.mp he with h | h
    · subst h; simp
    · have := ih e h
      rcases (mem_map_snd_orderedInsert _ _ _).mp this with h2 | h2
      · simp [h2]
      · simpa using Or.inr h2

/-- When the heap is kept sorted, every recorded step pops the head of the
heap and that head is a lexicographic minimum of the heap contents. -/
theorem simLoop_step_min {σ : Type} (tasks : List Int)
    (query : σ → Nat → List Nat × σ) :
    ∀ (pool : List (Int × Nat)) (mapping : List Int) (req : Nat)
      (lt : Option Int) (s : σ), List.Sorted pairLe pool →
      ∀ (pre : List SimStep) (e : SimStep) (post : List SimStep),
        (simLoop tasks query pool mapping req lt s).1 = pre ++ e :: post →
        e.pool.head? = some (e.time, e.res) ∧
          ∀ x ∈ e.pool, pairLe (e.time, e.res) x := by
  intro pool mapping req lt s
  induction pool, mapping, req, lt, s using simLoop.induct tasks query with
  | case1 mapping req lt s =>
    intro hs pre e post htr
    cases lt <;>
      first
        | (rw [simLoop_nil_none] at htr; exact absurd htr (by simp))
        | (rw [simLoop_nil_some] at htr; exact absurd htr (by simp))
  | case2 time resId rest mapping req lt s s2 hq ih =>
    intro hs pre e post htr
    rw [simLoop_cons_empty tasks query time resId rest mapping req lt s s2 hq]
      at htr
    obtain ⟨hall, hrest⟩ := (List.sorted_cons).mp hs
    cases pre with
    | nil =>
      simp only [List.nil_append, List.cons.injEq] at htr
      rw [← htr.1]
      refine ⟨rfl, ?_⟩
      intro x hx
      rcases List.mem_cons.mp hx with h | h
      · subst h; exact pairLe_refl _
      · exact hall x h
    | cons p0 pre2 =>
      simp only [List.cons_append, List.cons.injEq] at htr
      exact ih hrest pre2 e post htr.2
  | case3 time resId rest mapping req lt s batch s2 hq hb ha =>
    intro hs pre e post htr
    rw [simLoop_cons_conflict tasks query time resId rest mapping req lt s s2
      batch hq hb ha] at htr
    obtain ⟨hall, hrest⟩ := (List.sorted_cons).mp hs
    cases pre with
    | nil =>
      simp only [List.nil_append, List.cons.injEq] at htr
      rw [← htr.1]
      refine ⟨rfl, ?_⟩
      intro x hx
      rcases List.mem_cons.mp hx with h | h
      · subst h; exact pairLe_refl _
      · exact hall x h
    | cons p0 pre2 =>
      simp only [List.cons_append, List.cons.injEq] at htr
      exact absurd htr.2 (by simp)
  | case4 time resId rest mapping req lt s batch s2 hq hb ha =>
    intro hs pre e post htr
    rw [simLoop_cons_oob tasks query time resId rest mapping req lt s s2
      batch hq hb ha] at htr
    obtain ⟨hall, hrest⟩ := (List.sorted_cons).mp hs
    cases pre with
    | nil =>
      simp only [List.nil_append, List.cons.injEq] at htr
      rw [← htr.1]
      refine ⟨rfl, ?_⟩
      intro x hx
      rcases List.mem_cons.mp hx with h | h
      · subst h; exact pairLe_refl _
      · exact hall x h
    | cons p0 pre2 =>
      simp only [List.cons_append, List.cons.injEq] at htr
      exact absurd htr.2 (by simp)
  | case5 time resId rest mapping req lt s batch s2 hq hb mapping2 extra ha ih =>
    intro hs pre e post htr
    rw [simLoop_cons_ok tasks query time resId rest mapping req lt s s2 batch
      mapping2 extra hq hb ha] at htr
    obtain ⟨hall, hrest⟩ := (List.sorted_cons).mp hs
    cases pre with
    | nil =>
      simp only [List.nil_append, List.cons.injEq] at htr
      rw [← htr.1]
      refine ⟨rfl, ?_⟩
      intro x hx
      rcases List.mem_cons.mp hx with h | h
      · subst h; exact pairLe_refl _
      · exact hall x h
    | cons p0 pre2 =>
      simp only [List.cons_append, List.cons.injEq] at htr
      exact ih (List.Sorted.orderedInsert _ _ hrest) pre2 e post htr.2

/-- Once a step's query comes back empty, the popped resource never occurs
again in the remainder of the trace. -/
theorem simLoop_retire_permanent {σ : Type} (tasks : List Int)
    (query : σ → Nat → List Nat × σ) :
    ∀ (pool : List (Int × Nat)) (mapping : List Int) (req : Nat)
      (lt : Option Int) (s : σ), (pool.map Prod.snd).Nodup →
      ∀ (pre : List SimStep) (e : SimStep) (post : List SimStep),
        (simLoop tasks query pool mapping req lt s).1 = pre ++ e :: post →
        e.batch = [] → ∀ e2 ∈ post, e2.res ≠ e.res := by
  intro pool mapping req lt s
  induction pool, mapping, req, lt, s using simLoop.induct tasks query with
  | case1 mapping req lt s =>
    intro hnd pre e post htr
    cases lt <;>
      first
        | (rw [simLoop_nil_none] at htr; exact absurd htr (by simp))
        | (rw [simLoop_nil_some] at htr; exact absurd htr (by simp))
  | case2 time resId rest mapping req lt s s2 hq ih =>
    intro hnd pre e post htr hbe
    rw [simLoop_cons_empty tasks query time resId rest mapping req lt s s2 hq]
      at htr
    simp only [List.map_cons, List.nodup_cons] at hnd
    cases pre with
    | nil =>
      simp only [List.nil_append, List.cons.injEq] at htr
      intro e2 he2
      have hmem := simLoop_res_mem tasks query rest mapping req (some time) s2
        e2 (by rw [← htr.2] at he2; exact he2)
      intro hcontra
      rw [← htr.1] at hcontra
      simp only [] at hcontra
      rw [hcontra] at hmem
      exact hnd.1 hmem
    | cons p0 pre2 =>
      simp only [List.cons_append, List.cons.injEq] at htr
      exact ih hnd.2 pre2 e post htr.2 hbe
  | case3 time resId rest mapping req lt s batch s2 hq hb ha =>
    intro hnd pre e post htr hbe
    rw [simLoop_cons_conflict tasks query time resId rest mapping req lt s s2
      batch hq hb ha] at htr
    cases pre with
    | nil =>
      simp only [List.nil_append, List.cons.injEq] at htr
      rw [← htr.1] at hbe
      exact absurd hbe hb
    | cons p0 pre2 =>
      simp only [List.cons_append, List.cons.injEq] at htr
      exact absurd htr.2 (by simp)
  | case4 time resId rest mapping req lt s batch s2 hq hb ha =>
    intro hnd pre e post htr hbe
    rw [simLoop_cons_oob tasks query time resId rest mapping req lt s s2
      batch hq hb ha] at htr
    cases pre with
    | nil =>
      simp only [List.nil_append, List.cons.injEq] at htr
      rw [← htr.1] at hbe
      exact absurd hbe hb
    | cons p0 pre2 =>
      simp only [List.cons_append, List.cons.injEq] at htr
      exact absurd htr.2 (by simp)
  | case5 time resId rest mapping req lt s batch s2 hq hb mapping2 extra ha ih =>
    intro hnd pre e post htr hbe
    rw [simLoop_cons_ok tasks query time resId rest mapping req lt s s2 batch
      mapping2 extra hq hb ha] at htr
    simp only [List.map_cons, List.nodup_cons] at hnd
    cases pre with
    | nil =>
      simp only [List.nil_append, List.cons.injEq] at htr
      rw [← htr.1] at hbe
      exact absurd hbe hb
    | cons p0 pre2 =>
      simp only [List.cons_append, List.cons.injEq] at htr
      refine ih ?_ pre2 e post htr.2 hbe
      exact nodup_map_snd_orderedInsert _ _ (by simp [hnd.1, hnd.2])

theorem initPool_sorted (R : Nat) : List.Sorted pairLe (initPool R) := by
  unfold initPool List.Sorted
  rw [List.pairwise_map]
  exact (List.pairwise_lt_range R).imp (fun h => Or.inr ⟨rfl, Nat.le_of_lt h⟩)

theorem initPool_map_snd (R : Nat) : (initPool R).map Prod.snd = List.range R := by
  simp [initPool, List.map_map]

/-- C8: in every step of the engine loop the popped pair is the head of
the heap and a lexicographic minimum (earliest finish time, ties broken by
smaller resource id) of the heap contents at that step; and once a step's
query comes back empty, that resource is never queried again in the whole
remainder of the simulation. -/
theorem C8_engine_order {σ : Type} (tasks : List Int) (R : Nat)
    (query : σ → Nat → List Nat × σ) (s0 : σ)
    (pre : List SimStep) (e : SimStep) (post : List SimStep)
    (htr : simTrace tasks R query s0 = pre ++ e :: post) :
    (e.pool.head? = some (e.time, e.res) ∧
        ∀ x ∈ e.pool, pairLe (e.time, e.res) x) ∧
      (e.batch = [] → ∀ e2 ∈ post, e2.res ≠ e.res) := by
  unfold simTrace simulateRun at htr
  constructor
  · exact simLoop_step_min tasks query (initPool R) _ 0 none s0
      (initPool_sorted R) pre e post htr
  · exact simLoop_retire_permanent tasks query (initPool R) _ 0 none s0
      (by rw [initPool_map_snd]; exact List.nodup_range R) pre e post htr

theorem C8_engine_order_witness :
    ((SimStep.mk [((2 : Int), 0)] 2 0 []).pool.head? = some (2, 0) ∧
        ∀ x ∈ (SimStep.mk [((2 : Int), 0)] 2 0 []).pool,
          pairLe ((2 : Int), 0) x) ∧
      ((SimStep.mk [((2 : Int), 0)] 2 0 []).batch = [] →
        ∀ e2 ∈ ([] : List SimStep), e2.res ≠ 0) := by
  have htr : simTrace [(2 : Int)] 1 lptQuery (lptInit [2]) =
      [⟨[((0 : Int), 0)], 0, 0, [0]⟩] ++ ⟨[((2 : Int), 0)], 2, 0, []⟩ :: [] := by
    simp only [simTrace, simulateRun, initPool]
    norm_num [List.range_succ]
    simp [simLoop.eq_def, lptQuery, lptInit, List.insertionSort, assignBatch,
      List.orderedInsert, pairLe, List.range_succ]
  exact C8_engine_order [(2 : Int)] 1 lptQuery (lptInit [2])
    [⟨[((0 : Int), 0)], 0, 0, [0]⟩] ⟨[((2 : Int), 0)], 2, 0, []⟩ [] htr

theorem orderedInsert_ne_nil (x : Int × Nat) (l : List (Int × Nat)) :
    List.orderedInsert pairLe x l ≠ [] := by
  intro h
  have := List.orderedInsert_length (r := pairLe) l x
  rw [h] at this
  simp at this

theorem simLoop_trace_ne_nil {σ : Type} (tasks : List Int)
    (query : σ → Nat → List Nat × σ) (pool : List (Int × Nat))
    (mapping : List Int) (req : Nat) (lt : Option Int) (s : σ)
    (hpool : pool ≠ []) :
    (simLoop tasks query pool mapping req lt s).1 ≠ [] := by
  cases pool with
  | nil => exact absurd rfl hpool
  | cons hd rest =>
    obtain ⟨time, resId⟩ := hd
    rcases hq : query s resId with ⟨batch, s2⟩
    by_cases hb : batch = []
    · subst hb
      rw [simLoop_cons_empty tasks query time resId rest mapping req lt s s2 hq]
      simp
    · cases hae : assignBatch tasks resId batch mapping 0 with
      | error err =>
        cases err with
        | conflict =>
          rw [simLoop_cons_conflict tasks query time resId rest mapping req lt
            s s2 batch hq hb hae]
          simp
        | outOfRange =>
          rw [simLoop_cons_oob tasks query time resId rest mapping req lt
            s s2 batch hq hb hae]
          simp
      | ok p =>
        obtain ⟨m2, x⟩ := p
        rw [simLoop_cons_ok tasks query time resId rest mapping req lt s s2
          batch m2 x hq hb hae]
        simp

theorem getLast?_cons_of_ne_nil {α : Type} (a : α) (l : List α) (h : l ≠ []) :
    (a :: l).getLast? = l.getLast? := by
  cases l with
  | nil => exact absurd rfl h
  | cons b tl => exact List.getLast?_cons_cons

/-- On a run that ends in the normal `return`, the reported makespan is
the time of the very last entry removed from the heap, and that last step
is a retirement (its query answered empty). -/
theorem simLoop_last_entry {σ : Type} (tasks : List Int)
    (query : σ → Nat → List Nat × σ) :
    ∀ (pool : List (Int × Nat)) (mapping : List Int) (req : Nat)
      (lt : Option Int) (s : σ) (m : List Int) (T q c : Int),
      (simLoop tasks query pool mapping req lt s).2 = some (m, T, q, c) →
      (m, T, q, c) ≠ ([], -1, -1, -1) →
      ((simLoop tasks query pool mapping req lt s).1 = [] ∧ lt = some T) ∨
        (∃ e, ((simLoop tasks query pool mapping req lt s).1).getLast? =
            some e ∧ e.time = T ∧ e.batch = []) := by
  intro pool mapping req lt s
  induction pool, mapping, req, lt, s using simLoop.induct tasks query with
  | case1 mapping req lt s =>
    intro m T q c hres hns
    cases lt with
    | none => rw [simLoop_nil_none] at hres; simp at hres
    | some t =>
      rw [simLoop_nil_some] at hres
      simp only [Option.some.injEq, Prod.mk.injEq] at hres
      rw [simLoop_nil_some]
      exact Or.inl ⟨rfl, by rw [hres.2.1]⟩
  | case2 time resId rest mapping req lt s s2 hq ih =>
    intro m T q c hres hns
    rw [simLoop_cons_empty tasks query time resId rest mapping req lt s s2 hq]
      at hres ⊢
    simp only [] at hres
    rcases ih m T q c hres hns with ⟨htr, hlt⟩ | ⟨e, hgl, het, heb⟩
    · simp only [Option.some.injEq] at hlt
      refine Or.inr ⟨⟨(time, resId) :: rest, time, resId, []⟩, ?_, by simp [hlt], rfl⟩
      rw [htr]
      rfl
    · refine Or.inr ⟨e, ?_, het, heb⟩
      rw [getLast?_cons_of_ne_nil _ _ ?_]
      · exact hgl
      · intro hnil
        rw [hnil] at hgl
        simp at hgl
  | case3 time resId rest mapping req lt s batch s2 hq hb ha =>
    intro m T q c hres hns
    rw [simLoop_cons_conflict tasks query time resId rest mapping req lt s s2
      batch hq hb ha] at hres
    simp only [Option.some.injEq, Prod.mk.injEq] at hres
    obtain ⟨h1, h2, h3, h4⟩ := hres
    subst h1
    subst h2
    subst h3
    subst h4
    exact absurd rfl hns
  | case4 time resId rest mapping req lt s batch s2 hq hb ha =>
    intro m T q c hres hns
    rw [simLoop_cons_oob tasks query time resId rest mapping req lt s s2
      batch hq hb ha] at hres
    simp at hres
  | case5 time resId rest mapping req lt s batch s2 hq hb mapping2 extra ha ih =>
    intro m T q c hres hns
    rw [simLoop_cons_ok tasks query time resId rest mapping req lt s s2 batch
      mapping2 extra hq hb ha] at hres ⊢
    simp only [] at hres
    rcases ih m T q c hres hns with ⟨htr, hlt⟩ | ⟨e, hgl, het, heb⟩
    · exact absurd htr (simLoop_trace_ne_nil tasks query _ _ _ _ _
        (orderedInsert_ne_nil _ _))
    · refine Or.inr ⟨e, ?_, het, heb⟩
      rw [getLast?_cons_of_ne_nil _ _ ?_]
      · exact hgl
      · intro hnil
        rw [hnil] at hgl
        simp at hgl

/-- On a run that ends in the normal `return`, every resource present in
the heap is eventually retired: the trace contains an empty-batch step for
it. -/
theorem simLoop_retire_coverage {σ : Type} (tasks : List Int)
    (query : σ → Nat → List Nat × σ) :
    ∀ (pool : List (Int × Nat)) (mapping : List Int) (req : Nat)
      (lt : Option Int) (s : σ) (m : List Int) (T q c : Int),
      (simLoop tasks query pool mapping req lt s).2 = some (m, T, q, c) →
      (m, T, q, c) ≠ ([], -1, -1, -1) →
      ∀ p ∈ pool, ∃ e ∈ (simLoop tasks query pool mapping req lt s).1,
        e.res = p.2 ∧ e.batch = [] := by
  intro pool mapping req lt s
  induction pool, mapping, req, lt, s using simLoop.induct tasks query with
  | case1 mapping req lt s =>
    intro m T q c hres hns p hp
    simp at hp
  | case2 time resId rest mapping req lt s s2 hq ih =>
    intro m T q c hres hns p hp
    rw [simLoop_cons_empty tasks query time resId rest mapping req lt s s2 hq]
      at hres ⊢
    simp only [] at hres
    rcases List.mem_cons.mp hp with h | h
    · exact ⟨⟨(time, resId) :: rest, time, resId, []⟩, by simp, by rw [h], rfl⟩
    · obtain ⟨e, he, her, heb⟩ := ih m T q c hres hns p h
      exact ⟨e, by simp [he], her, heb⟩
  | case3 time resId rest mapping req lt s batch s2 hq hb ha =>
    intro m T q c hres hns p hp
    rw [simLoop_cons_conflict tasks query time resId rest mapping req lt s s2
      batch hq hb ha] at hres
    simp only [Option.some.injEq, Prod.mk.injEq] at hres
    obtain ⟨h1, h2, h3, h4⟩ := hres
    subst h1
    subst h2
    subst h3
    subst h4
    exact absurd rfl hns
  | case4 time resId rest mapping req lt s batch s2 hq hb ha =>
    intro m T q c hres hns p hp
    rw [simLoop_cons_oob tasks query time resId rest mapping req lt s s2
      batch hq hb ha] at hres
    simp at hres
  | case5 time resId rest mapping req lt s batch s2 hq hb mapping2 extra ha ih =>
    intro m T q c hres hns p hp
    rw [simLoop_cons_ok tasks query time resId rest mapping req lt s s2 batch
      mapping2 extra hq hb ha] at hres ⊢
    simp only [] at hres
    rcases List.mem_cons.mp hp with h | h
    · obtain ⟨e, he, her, heb⟩ := ih m T q c hres hns (time + extra, resId)
        ((List.mem_orderedInsert pairLe).mpr (Or.inl rfl))
      exact ⟨e, by simp [he], by rw [her, h], heb⟩
    · obtain ⟨e, he, her, heb⟩ := ih m T q c hres hns p
        ((List.mem_orderedInsert pairLe).mpr (Or.inr h))
      exact ⟨e, by simp [he], her, heb⟩

theorem getD_nonneg (l : List Int) (n : Nat) (h : ∀ v ∈ l, 0 ≤ v) :
    0 ≤ l.getD n 0 := by
  induction l generalizing n with
  | nil => simp
  | cons a tl ih =>
    cases n with
    | zero => simpa using h a (by simp)
    | succ k => simpa using ih k (fun v hv => h v (by simp [hv]))

theorem assignBatch_extra_le (tasks : List Int) (resId : Nat)
    (batch : List Nat) :
    ∀ (m : List Int) (e : Int) (m2 : List Int) (x : Int),
      (∀ v ∈ tasks, 0 ≤ v) →
      assignBatch tasks resId batch m e = Except.ok (m2, x) → e ≤ x := by
  induction batch with
  | nil =>
    intro m e m2 x _ h
    simp only [assignBatch, Except.ok.injEq, Prod.mk.injEq] at h
    omega
  | cons t rest ih =>
    intro m e m2 x hload h
    simp only [assignBatch] at h
    split at h
    · split at h
      · have := ih _ _ _ _ hload h
        have h0 := getD_nonneg tasks t hload
        omega
      · exact absurd h (by simp)
    · exact absurd h (by simp)

theorem pairLe_fst_le (a b : Int × Nat) (h : pairLe a b) : a.1 ≤ b.1 := by
  unfold pairLe at h
  omega

/-- With non-negative loads and a sorted heap bounded below by the last
popped time, every step's time is at most the final makespan. -/
theorem simLoop_times_le {σ : Type} (tasks : List Int)
    (query : σ → Nat → List Nat × σ) (hload : ∀ v ∈ tasks, 0 ≤ v) :
    ∀ (pool : List (Int × Nat)) (mapping : List Int) (req : Nat)
      (lt : Option Int) (s : σ) (m : List Int) (T q c : Int),
      List.Sorted pairLe pool →
      (∀ t0, lt = some t0 → ∀ p ∈ pool, t0 ≤ p.1) →
      (simLoop tasks query pool mapping req lt s).2 = some (m, T, q, c) →
      (m, T, q, c) ≠ ([], -1, -1, -1) →
      (∀ e ∈ (simLoop tasks query pool mapping req lt s).1, e.time ≤ T) ∧
        (∀ t0, lt = some t0 → t0 ≤ T) := by
  intro pool mapping req lt s
  induction pool, mapping, req, lt, s using simLoop.induct tasks query with
  | case1 mapping req lt s =>
    intro m T q c hs hlt hres hns
    cases lt with
    | none => rw [simLoop_nil_none] at hres; simp at hres
    | some t =>
      rw [simLoop_nil_some] at hres
      simp only [Option.some.injEq, Prod.mk.injEq] at hres
      rw [simLoop_nil_some]
      refine ⟨by simp, ?_⟩
      intro t0 ht0
      simp only [Option.some.injEq] at ht0
      have := hres.2.1
      omega
  | case2 time resId rest mapping req lt s s2 hq ih =>
    intro m T q c hs hlt hres hns
    rw [simLoop_cons_empty tasks query time resId rest mapping req lt s s2 hq]
      at hres ⊢
    simp only [] at hres
    obtain ⟨hall, hrest⟩ := (List.sorted_cons).mp hs
    have hlt2 : ∀ t0, (some time : Option Int) = some t0 →
        ∀ p ∈ rest, t0 ≤ p.1 := by
      intro t0 ht0 p hp
      simp only [Option.some.injEq] at ht0
      subst ht0
      exact pairLe_fst_le _ _ (hall p hp)
    obtain ⟨htr, htime⟩ := ih m T q c hrest hlt2 hres hns
    have hTtime : time ≤ T := htime time rfl
    refine ⟨?_, ?_⟩
    · intro e he
      rcases List.mem_cons.mp he with h | h
      · rw [h]; exact hTtime
      · exact htr e h
    · intro t0 ht0
      have := hlt t0 ht0 (time, resId) (by simp)
      simp only [] at this
      omega
  | case3 time resId rest mapping req lt s batch s2 hq hb ha =>
    intro m T q c hs hlt hres hns
    rw [simLoop_cons_conflict tasks query time resId rest mapping req lt s s2
      batch hq hb ha] at hres
    simp only [Option.some.injEq, Prod.mk.injEq] at hres
    obtain ⟨h1, h2, h3, h4⟩ := hres
    subst h1
    subst h2
    subst h3
    subst h4
    exact absurd rfl hns
  | case4 time resId rest mapping req lt s batch s2 hq hb ha =>
    intro m T q c hs hlt hres hns
    rw [simLoop_cons_oob tasks query time resId rest mapping req lt s s2
      batch hq hb ha] at hres
    simp at hres
  | case5 time resId rest mapping req lt s batch s2 hq hb mapping2 extra ha ih =>
    intro m T q c hs hlt hres hns
    rw [simLoop_cons_ok tasks query time resId rest mapping req lt s s2 batch
      mapping2 extra hq hb ha] at hres ⊢
    simp only [] at hres
    obtain ⟨hall, hrest⟩ := (List.sorted_cons).mp hs
    have hextra : (0 : Int) ≤ extra :=
      assignBatch_extra_le tasks resId batch mapping 0 mapping2 extra hload ha
    have hlt2 : ∀ t0, (some time : Option Int) = some t0 →
        ∀ p ∈ List.orderedInsert pairLe (time + extra, resId) rest, t0 ≤ p.1 := by
      intro t0 ht0 p hp
      simp only [Option.some.injEq] at ht0
      subst ht0
      rcases (List.mem_orderedInsert pairLe).mp hp with h | h
      · rw [h]; simp; omega
      · exact pairLe_fst_le _ _ (hall p h)
    obtain ⟨htr, htime⟩ := ih m T q c
      (List.Sorted.orderedInsert _ _ hrest) hlt2 hres hns
    have hTtime : time ≤ T := htime time rfl
    refine ⟨?_, ?_⟩
    · intro e he
      rcases List.mem_cons.mp he with h | h
      · rw [h]; exact hTtime
      · exact htr e h
    · intro t0 ht0
      have := hlt t0 ht0 (time, resId) (by simp)
      simp only [] at this
      omega

/-- C2: on a run with non-negative loads that terminates normally, the
returned makespan is the time of the very last entry popped from the heap
(a retirement step, of a valid resource), and it is the maximum of the
retirement times: every resource below R retires at some step whose time
is at most the makespan. -/
theorem C2_makespan_last_pop {σ : Type} (tasks : List Int) (R : Nat)
    (query : σ → Nat → List Nat × σ) (s0 : σ)
    (hload : ∀ v ∈ tasks, 0 ≤ v) (hR : 1 ≤ R)
    (m : List Int) (T q c : Int)
    (hrun : simulate tasks R query s0 = some (m, T, q, c))
    (hns : (m, T, q, c) ≠ ([], -1, -1, -1)) :
    (∃ e, (simTrace tasks R query s0).getLast? = some e ∧ e.time = T ∧
        e.batch = [] ∧ e.res < R) ∧
      (∀ r, r < R → ∃ e ∈ simTrace tasks R query s0,
        e.res = r ∧ e.batch = [] ∧ e.time ≤ T) := by
  unfold simulate simulateRun at hrun
  unfold simTrace simulateRun
  have hlt0 : ∀ t0, (none : Option Int) = some t0 →
      ∀ p ∈ initPool R, t0 ≤ p.1 := by intro t0 ht0; simp at ht0
  have htimes := simLoop_times_le tasks query hload (initPool R) _ 0 none s0
    m T q c (initPool_sorted R) hlt0 hrun hns
  constructor
  · rcases simLoop_last_entry tasks query (initPool R) _ 0 none s0 m T q c
      hrun hns with ⟨htr, hlt⟩ | ⟨e, hgl, het, heb⟩
    · simp at hlt
    · refine ⟨e, hgl, het, heb, ?_⟩
      have hmem : e ∈ (simLoop tasks query (initPool R)
          (List.replicate tasks.length (-1)) 0 none s0).1 := by
        obtain ⟨hne, heq⟩ := List.mem_getLast?_eq_getLast
          (show e ∈ ((simLoop tasks query (initPool R)
            (List.replicate tasks.length (-1)) 0 none s0).1).getLast? from by
              rw [hgl]; rfl)
        rw [heq]
        exact List.getLast_mem hne
      have := simLoop_res_mem tasks query (initPool R) _ 0 none s0 e hmem
      rw [initPool_map_snd] at this
      exact List.mem_range.mp this
  · intro r hr
    have hp : ((0 : Int), r) ∈ initPool R := by
      simp only [initPool, List.mem_map]
      exact ⟨r, List.mem_range.mpr hr, rfl⟩
    obtain ⟨e, he, her, heb⟩ := simLoop_retire_coverage tasks query
      (initPool R) _ 0 none s0 m T q c hrun hns ((0 : Int), r) hp
    exact ⟨e, he, her, heb, htimes.1 e he⟩

theorem C2_makespan_last_pop_witness :
    ((∃ e, (simTrace [(2 : Int)] 1 lptQuery (lptInit [2])).getLast? = some e ∧
        e.time = 2 ∧ e.batch = [] ∧ e.res < 1) ∧
      (∀ r, r < 1 → ∃ e ∈ simTrace [(2 : Int)] 1 lptQuery (lptInit [2]),
        e.res = r ∧ e.batch = [] ∧ e.time ≤ 2)) := by
  have hrun : simulate [(2 : Int)] 1 lptQuery (lptInit [2]) =
      some ([0], 2, 1, 0) := by
    simp only [simulate, simulateRun, initPool]
    norm_num [List.range_succ]
    simp [simLoop.eq_def, lptQuery, lptInit, List.insertionSort, assignBatch,
      List.orderedInsert, pairLe, List.range_succ, contigChanges]
  exact C2_makespan_last_pop [(2 : Int)] 1 lptQuery (lptInit [2])
    (by decide) (by decide) [0] 2 1 0 hrun (by decide)

/-- Sum of the loads of the tasks currently mapped to resource value `r`:
walk the mapping and the load list in lockstep. -/
def mappedLoad (r : Int) : List Int → List Int → Int
  | mv :: ms, load :: ls => (if mv = r then load else 0) + mappedLoad r ms ls
  | _, _ => 0

theorem mappedLoad_replicate (r : Int) (hr : r ≠ -1) (n : Nat) :
    ∀ xs : List Int, mappedLoad r (List.replicate n (-1)) xs = 0 := by
  induction n with
  | zero => intro xs; cases xs <;> rfl
  | succ k ih =>
    intro xs
    cases xs with
    | nil => rfl
    | cons x ls =>
      simp only [List.replicate, mappedLoad, ih ls]
      have : ((-1 : Int) = r) = False := by simp; omega
      simp [this]

theorem mappedLoad_set_eq (r : Int) (m : List Int) :
    ∀ (t : Nat) (xs : List Int), t < m.length → m.getD t 0 ≠ r →
      mappedLoad r (m.set t r) xs = mappedLoad r m xs + xs.getD t 0 := by
  induction m with
  | nil => intro t xs ht; simp at ht
  | cons a ms ih =>
    intro t xs ht hm
    cases t with
    | zero =>
      simp only [List.getD_cons_zero] at hm
      cases xs with
      | nil => simp [mappedLoad, List.set]
      | cons x ls =>
        simp only [List.set, mappedLoad, List.getD_cons_zero]
        simp only [if_true, if_neg hm]
        omega
    | succ k =>
      simp only [List.getD_cons_succ] at hm
      simp only [List.length_cons, Nat.succ_lt_succ_iff] at ht
      cases xs with
      | nil => simp [mappedLoad, List.set]
      | cons x ls =>
        simp only [List.set, mappedLoad, List.getD_cons_succ]
        rw [ih k ls ht hm]
        omega

theorem mappedLoad_set_ne (r v : Int) (m : List Int) :
    ∀ (t : Nat) (xs : List Int), m.getD t 0 ≠ r → v ≠ r →
      mappedLoad r (m.set t v) xs = mappedLoad r m xs := by
  induction m with
  | nil => intro t xs _ _; simp [List.set]
  | cons a ms ih =>
    intro t xs hm hv
    cases t with
    | zero =>
      simp only [List.getD_cons_zero] at hm
      cases xs with
      | nil => simp [mappedLoad, List.set]
      | cons x ls =>
        simp only [List.set, mappedLoad, if_neg hm, if_neg hv]
    | succ k =>
      simp only [List.getD_cons_succ] at hm
      cases xs with
      | nil => simp [mappedLoad, List.set]
      | cons x ls =>
        simp only [List.set, mappedLoad]
        rw [ih k ls hm hv]

theorem assignBatch_mappedLoad_self (tasks : List Int) (resId : Nat)
    (batch : List Nat) :
    ∀ (m : List Int) (e : Int) (m2 : List Int) (x : Int),
      assignBatch tasks resId batch m e = Except.ok (m2, x) →
      mappedLoad (resId : Int) m2 tasks =
        mappedLoad (resId : Int) m tasks + (x - e) := by
  induction batch with
  | nil =>
    intro m e m2 x h
    simp only [assignBatch, Except.ok.injEq, Prod.mk.injEq] at h
    rw [← h.1]
    omega
  | cons t rest ih =>
    intro m e m2 x h
    simp only [assignBatch] at h
    split at h
    · next ht =>
      split at h
      · next hm =>
        have hcur : m.getD t 0 ≠ (resId : Int) := by
          rw [hm]
          have := natCast_ne_neg_one resId
          omega
        have hstep := mappedLoad_set_eq (resId : Int) m t tasks ht hcur
        have hrec := ih _ _ _ _ h
        rw [hrec, hstep]
        omega
      · exact absurd h (by simp)
    · exact absurd h (by simp)

theorem assignBatch_mappedLoad_other (tasks : List Int) (resId : Nat)
    (batch : List Nat) (r : Int) (hr1 : r ≠ (resId : Int)) (hr2 : r ≠ -1) :
    ∀ (m : List Int) (e : Int) (m2 : List Int) (x : Int),
      assignBatch tasks resId batch m e = Except.ok (m2, x) →
      mappedLoad r m2 tasks = mappedLoad r m tasks := by
  induction batch with
  | nil =>
    intro m e m2 x h
    simp only [assignBatch, Except.ok.injEq, Prod.mk.injEq] at h
    rw [← h.1]
  | cons t rest ih =>
    intro m e m2 x h
    simp only [assignBatch] at h
    split at h
    · next ht =>
      split at h
      · next hm =>
        have hcur : m.getD t 0 ≠ r := by rw [hm]; omega
        have hv : (resId : Int) ≠ r := fun hh => hr1 hh.symm
        rw [ih _ _ _ _ h, mappedLoad_set_ne r _ m t tasks hcur hv]
      · exact absurd h (by simp)
    · exact absurd h (by simp)

/-- A resource absent from the heap is never assigned more work: its
mapped-load in the final mapping is its current mapped-load. -/
theorem simLoop_mappedLoad_final {σ : Type} (tasks : List Int)
    (query : σ → Nat → List Nat × σ) :
    ∀ (pool : List (Int × Nat)) (mapping : List Int) (req : Nat)
      (lt : Option Int) (s : σ) (m : List Int) (T q c : Int) (r : Nat),
      (simLoop tasks query pool mapping req lt s).2 = some (m, T, q, c) →
      (m, T, q, c) ≠ ([], -1, -1, -1) →
      r ∉ pool.map Prod.snd →
      mappedLoad (r : Int) m tasks = mappedLoad (r : Int) mapping tasks := by
  intro pool mapping req lt s
  induction pool, mapping, req, lt, s using simLoop.induct tasks query with
  | case1 mapping req lt s =>
    intro m T q c r hres hns hr
    cases lt with
    | none => rw [simLoop_nil_none] at hres; simp at hres
    | some t =>
      rw [simLoop_nil_some] at hres
      simp only [Option.some.injEq, Prod.mk.injEq] at hres
      rw [hres.1]
  | case2 time resId rest mapping req lt s s2 hq ih =>
    intro m T q c r hres hns hr
    rw [simLoop_cons_empty tasks query time resId rest mapping req lt s s2 hq]
      at hres
    simp only [] at hres
    simp only [List.map_cons, List.mem_cons] at hr
    exact ih m T q c r hres hns (fun hh => hr (Or.inr hh))
  | case3 time resId rest mapping req lt s batch s2 hq hb ha =>
    intro m T q c r hres hns hr
    rw [simLoop_cons_conflict tasks query time resId rest mapping req lt s s2
      batch hq hb ha] at hres
    simp only [Option.some.injEq, Prod.mk.injEq] at hres
    obtain ⟨h1, h2, h3, h4⟩ := hres
    subst h1
    subst h2
    subst h3
    subst h4
    exact absurd rfl hns
  | case4 time resId rest mapping req lt s batch s2 hq hb ha =>
    intro m T q c r hres hns hr
    rw [simLoop_cons_oob tasks query time resId rest mapping req lt s s2
      batch hq hb ha] at hres
    simp at hres
  | case5 time resId rest mapping req lt s batch s2 hq hb mapping2 extra ha ih =>
    intro m T q c r hres hns hr
    rw [simLoop_cons_ok tasks query time resId rest mapping req lt s s2 batch
      mapping2 extra hq hb ha] at hres
    simp only [] at hres
    simp only [List.map_cons, List.mem_cons] at hr
    have hrne : r ≠ resId := fun hh => hr (Or.inl hh)
    have hnotin : r ∉ (List.orderedInsert pairLe (time + extra, resId)
        rest).map Prod.snd := by
      intro hmem
      rcases (mem_map_snd_orderedInsert _ _ _).mp hmem with h | h
      · exact hrne h
      · exact hr (Or.inr h)
    rw [ih m T q c r hres hns hnotin]
    exact assignBatch_mappedLoad_other tasks resId batch (r : Int)
      (by exact_mod_cast hrne) (natCast_ne_neg_one r) mapping 0 mapping2
      extra ha

/-- When every heap entry's time equals the mapped-load of its resource,
every retirement in the trace happens exactly at the resource's final
mapped-load (the invariant of the virtual clocks). -/
theorem simLoop_retire_time_eq_load {σ : Type} (tasks : List Int)
    (query : σ → Nat → List Nat × σ) :
    ∀ (pool : List (Int × Nat)) (mapping : List Int) (req : Nat)
      (lt : Option Int) (s : σ) (m : List Int) (T q c : Int),
      (pool.map Prod.snd).Nodup →
      (∀ p ∈ pool, p.1 = mappedLoad ((p.2 : Nat) : Int) mapping tasks) →
      (simLoop tasks query pool mapping req lt s).2 = some (m, T, q, c) →
      (m, T, q, c) ≠ ([], -1, -1, -1) →
      ∀ e ∈ (simLoop tasks query pool mapping req lt s).1, e.batch = [] →
        e.time = mappedLoad ((e.res : Nat) : Int) m tasks := by
  intro pool mapping req lt s
  induction pool, mapping, req, lt, s using simLoop.induct tasks query with
  | case1 mapping req lt s =>
    intro m T q c hnd hpool hres hns e he
    cases lt with
    | none => rw [simLoop_nil_none] at hres; simp at hres
    | some t =>
      rw [simLoop_nil_some] at he
      simp at he
  | case2 time resId rest mapping req lt s s2 hq ih =>
    intro m T q c hnd hpool hres hns e he hbe
    rw [simLoop_cons_empty tasks query time resId rest mapping req lt s s2 hq]
      at hres he
    simp only [] at hres
    simp only [List.map_cons, List.nodup_cons] at hnd
    rcases List.mem_cons.mp he with h | h
    · subst h
      simp only []
      have hfin := simLoop_mappedLoad_final tasks query rest mapping req
        (some time) s2 m T q c resId hres hns hnd.1
      rw [hfin]
      exact hpool (time, resId) (by simp)
    · exact ih m T q c hnd.2
        (fun p hp => hpool p (by simp [hp])) hres hns e h hbe
  | case3 time resId rest mapping req lt s batch s2 hq hb ha =>
    intro m T q c hnd hpool hres hns e he hbe
    rw [simLoop_cons_conflict tasks query time resId rest mapping req lt s s2
      batch hq hb ha] at hres
    simp only [Option.some.injEq, Prod.mk.injEq] at hres
    obtain ⟨h1, h2, h3, h4⟩ := hres
    subst h1
    subst h2
    subst h3
    subst h4
    exact absurd rfl hns
  | case4 time resId rest mapping req lt s batch s2 hq hb ha =>
    intro m T q c hnd hpool hres hns e he hbe
    rw [simLoop_cons_oob tasks query time resId rest mapping req lt s s2
      batch hq hb ha] at hres
    simp at hres
  | case5 time resId rest mapping req lt s batch s2 hq hb mapping2 extra ha ih =>
    intro m T q c hnd hpool hres hns e he hbe
    rw [simLoop_cons_ok tasks query time resId rest mapping req lt s s2 batch
      mapping2 extra hq hb ha] at hres he
    simp only [] at hres
    simp only [List.map_cons, List.nodup_cons] at hnd
    rcases List.mem_cons.mp he with h | h
    · subst h
      simp only [] at hbe
      exact absurd hbe hb
    · refine ih m T q c ?_ ?_ hres hns e h hbe
      · exact nodup_map_snd_orderedInsert _ _ (by simp [hnd.1, hnd.2])
      · intro p hp
        rcases (List.mem_orderedInsert pairLe).mp hp with hcase | hcase
        · subst hcase
          simp only []
          have hself := assignBatch_mappedLoad_self tasks resId batch mapping
            0 mapping2 extra ha
          have hhead := hpool (time, resId) (by simp)
          simp only [] at hhead
          rw [hself, ← hhead]
          omega
        · have hpne : p.2 ≠ resId := by
            intro hh
            apply hnd.1
            rw [← hh]
            exact List.mem_map_of_mem Prod.snd hcase
          have hother := assignBatch_mappedLoad_other tasks resId batch
            ((p.2 : Nat) : Int) (by exact_mod_cast hpne)
            (natCast_ne_neg_one p.2) mapping 0 mapping2 extra ha
          rw [hother]
          exact hpool p (by simp [hcase])

/-- C3 (amended): for every policy and input, whenever `simulate` returns
normally, each resource retires exactly at its accumulated virtual finish
time, which is the sum of the loads of the tasks mapped to it in the
returned mapping.  (The original claim's further "no sentinel remains"
part is refuted by `C3_counterexample_base_scheduler`: a policy may hand
out nothing and the mapping keeps `-1` entries.) -/
theorem C3_amended_load_accounting {σ : Type} (tasks : List Int) (R : Nat)
    (query : σ → Nat → List Nat × σ) (s0 : σ) (m : List Int) (T q c : Int)
    (hrun : simulate tasks R query s0 = some (m, T, q, c))
    (hns : (m, T, q, c) ≠ ([], -1, -1, -1)) :
    ∀ e ∈ simTrace tasks R query s0, e.batch = [] →
      e.time = mappedLoad ((e.res : Nat) : Int) m tasks := by
  unfold simulate simulateRun at hrun
  unfold simTrace simulateRun
  refine simLoop_retire_time_eq_load tasks query (initPool R) _ 0 none s0
    m T q c ?_ ?_ hrun hns
  · rw [initPool_map_snd]
    exact List.nodup_range R
  · intro p hp
    simp only [initPool, List.mem_map] at hp
    obtain ⟨i, _, rfl⟩ := hp
    simp only []
    rw [mappedLoad_replicate ((i : Nat) : Int) (natCast_ne_neg_one i)
      tasks.length tasks]

theorem C3_amended_witness :
    (SimStep.mk [((2 : Int), 0)] 2 0 []).time =
      mappedLoad ((0 : Nat) : Int) [0] [(2 : Int)] := by
  have hrun : simulate [(2 : Int)] 1 lptQuery (lptInit [2]) =
      some ([0], 2, 1, 0) := by
    simp only [simulate, simulateRun, initPool]
    norm_num [List.range_succ]
    simp [simLoop.eq_def, lptQuery, lptInit, List.insertionSort, assignBatch,
      List.orderedInsert, pairLe, List.range_succ, contigChanges]
  have htr : (SimStep.mk [((2 : Int), 0)] 2 0 []) ∈
      simTrace [(2 : Int)] 1 lptQuery (lptInit [2]) := by
    have heq : simTrace [(2 : Int)] 1 lptQuery (lptInit [2]) =
        [⟨[((0 : Int), 0)], 0, 0, [0]⟩, ⟨[((2 : Int), 0)], 2, 0, []⟩] := by
      simp only [simTrace, simulateRun, initPool]
      norm_num [List.range_succ]
      simp [simLoop.eq_def, lptQuery, lptInit, List.insertionSort, assignBatch,
        List.orderedInsert, pairLe, List.range_succ]
    rw [heq]
    simp
  exact C3_amended_load_accounting [(2 : Int)] 1 lptQuery (lptInit [2])
    [0] 2 1 0 hrun (by decide) (SimStep.mk [((2 : Int), 0)] 2 0 []) htr rfl

theorem getD_ne_nil_lt (st : List (List Nat)) (r : Nat)
    (h : st.getD r [] ≠ []) : r < st.length := by
  by_contra hge
  exact h (List.getD_eq_default st [] (by omega))

theorem getD_mem_of_lt (st : List (List Nat)) (r : Nat) (h : r < st.length) :
    st.getD r [] ∈ st := by
  rw [List.getD_eq_getElem?_getD, List.getElem?_eq_getElem h]
  exact List.getElem_mem h

theorem mem_getD_mem_flatten (st : List (List Nat)) (r : Nat) :
    ∀ i ∈ st.getD r [], i ∈ st.flatten := by
  intro i hi
  have hr : r < st.length := getD_ne_nil_lt st r (by intro hh; rw [hh] at hi; simp at hi)
  exact (List.sublist_flatten_of_mem (getD_mem_of_lt st r hr)).mem hi

theorem flatten_set_nil_sublist (st : List (List Nat)) :
    ∀ r : Nat, ((st.set r []).flatten).Sublist st.flatten := by
  induction st with
  | nil => intro r; simp
  | cons hd tl ih =>
    intro r
    cases r with
    | zero =>
      simp only [List.set, List.flatten_cons, List.nil_append]
      exact List.sublist_append_right hd tl.flatten
    | succ k =>
      simp only [List.set, List.flatten_cons]
      exact (ih k).append_left hd

theorem mem_flatten_set_nil_not_mem (st : List (List Nat)) :
    ∀ (r : Nat) (i : Nat), st.flatten.Nodup →
      i ∈ (st.set r []).flatten → i ∉ st.getD r [] := by
  induction st with
  | nil => intro r i _ hi; simp at hi
  | cons hd tl ih =>
    intro r i hnd hi
    rw [List.flatten_cons, List.nodup_append] at hnd
    cases r with
    | zero =>
      simp only [List.set, List.flatten_cons, List.nil_append] at hi
      simp only [List.getD_cons_zero]
      exact fun hmem => hnd.2.2 hmem hi
    | succ k =>
      simp only [List.set, List.flatten_cons, List.mem_append] at hi
      simp only [List.getD_cons_succ]
      rcases hi with hi | hi
      · intro hmem
        exact hnd.2.2 hi (mem_getD_mem_flatten tl k i hmem)
      · exact ih k i hnd.2.1 hi

theorem countP_set_nil (st : List (List Nat)) :
    ∀ r : Nat, r < st.length → st.getD r [] ≠ [] →
      (st.set r []).countP (fun l => !l.isEmpty) + 1 =
        st.countP (fun l => !l.isEmpty) := by
  induction st with
  | nil => intro r hr; simp at hr
  | cons hd tl ih =>
    intro r hr hne
    cases r with
    | zero =>
      simp only [List.getD_cons_zero] at hne
      simp only [List.set, List.countP_cons]
      have h1 : (!List.isEmpty ([] : List Nat)) = false := by simp
      have h2 : (!hd.isEmpty) = true := by simp [hne]
      simp [h1, h2]
    | succ k =>
      simp only [List.getD_cons_succ] at hne
      simp only [List.length_cons, Nat.succ_lt_succ_iff] at hr
      simp only [List.set, List.countP_cons]
      have := ih k hr hne
      omega

theorem assignBatch_ok_of_fresh (tasks : List Int) (resId : Nat)
    (batch : List Nat) :
    ∀ (m : List Int) (e : Int),
      (∀ t ∈ batch, t < m.length ∧ m.getD t 0 = -1) → batch.Nodup →
      ∃ m2 x, assignBatch tasks resId batch m e = Except.ok (m2, x) := by
  induction batch with
  | nil => intro m e _ _; exact ⟨m, e, rfl⟩
  | cons t rest ih =>
    intro m e hfresh hnd
    have ht := hfresh t (by simp)
    simp only [assignBatch, ht.1, if_true, ht.2, if_pos rfl]
    apply ih
    · intro u hu
      have hu2 := hfresh u (by simp [hu])
      have hne : t ≠ u := by
        intro hh
        rw [List.nodup_cons] at hnd
        exact hnd.1 (hh ▸ hu)
      rw [List.length_set]
      exact ⟨hu2.1, by rw [getD_set_ne_int m t u _ hne]; exact hu2.2⟩
    · exact (List.nodup_cons.mp hnd).2

theorem assignBatch_ok_post (tasks : List Int) (resId : Nat)
    (batch : List Nat) :
    ∀ (m : List Int) (e : Int) (m2 : List Int) (x : Int),
      assignBatch tasks resId batch m e = Except.ok (m2, x) →
      m2.length = m.length ∧
        ∀ i, i ∉ batch → m2.getD i 0 = m.getD i 0 := by
  induction batch with
  | nil =>
    intro m e m2 x h
    simp only [assignBatch, Except.ok.injEq, Prod.mk.injEq] at h
    rw [← h.1]
    exact ⟨rfl, fun i _ => rfl⟩
  | cons t rest ih =>
    intro m e m2 x h
    simp only [assignBatch] at h
    split at h
    · split at h
      · obtain ⟨hlen, hpres⟩ := ih _ _ _ _ h
        rw [List.length_set] at hlen
        refine ⟨hlen, ?_⟩
        intro i hi
        simp only [List.mem_cons, not_or] at hi
        rw [hpres i hi.2, getD_set_ne_int m t i _ (fun hh => hi.1 hh.symm)]
      · exact absurd h (by simp)
    · exact absurd h (by simp)

/-- Counting successful queries of a precomputed-schedule policy: as long
as every nonempty entry of the table belongs to a live resource and the
table's indices are fresh and duplicate-free, the run returns normally and
counts exactly one successful query per nonempty table entry. -/
theorem simLoop_static_run (tasks : List Int) :
    ∀ (pool : List (Int × Nat)) (mapping : List Int) (req : Nat)
      (lt : Option Int) (st : List (List Nat)),
      (pool ≠ [] ∨ lt ≠ none) →
      (∀ r, st.getD r [] ≠ [] → r ∈ pool.map Prod.snd) →
      st.flatten.Nodup →
      (∀ i ∈ st.flatten, i < mapping.length ∧ mapping.getD i 0 = -1) →
      ∃ m T cc, (simLoop tasks staticQuery pool mapping req lt st).2 =
        some (m, T, (req : Int) + (st.countP (fun l => !l.isEmpty) : Int), cc) := by
  intro pool mapping req lt st
  induction pool, mapping, req, lt, st using simLoop.induct tasks staticQuery with
  | case1 mapping req lt st =>
    intro h0 h1 h2 h3
    cases lt with
    | none => simp at h0
    | some t =>
      rw [simLoop_nil_some]
      refine ⟨mapping, t, (contigChanges mapping : Int), ?_⟩
      have hcount : st.countP (fun l => !l.isEmpty) = 0 := by
        rw [List.countP_eq_zero]
        intro l hl
        obtain ⟨n, hn, hnl⟩ := List.mem_iff_getElem.mp hl
        have hgetD : st.getD n [] = l := by
          rw [List.getD_eq_getElem?_getD, List.getElem?_eq_getElem hn, hnl]
          rfl
        by_cases hnil : l = []
        · simp [hnil]
        · exact absurd (h1 n (by rw [hgetD]; exact hnil)) (by simp)
      rw [hcount]
      simp
  | case2 time resId rest mapping req lt st s2 hq ih =>
    intro h0 h1 h2 h3
    have hts : st.getD resId [] = [] := by
      rw [← staticQuery_fst st resId, hq]
    have hs2 : s2 = st := by
      have h4 := hq
      simp only [staticQuery, hts, if_pos rfl] at h4
      exact ((Prod.mk.injEq _ _ _ _).mp h4.symm).2
    rw [simLoop_cons_empty tasks staticQuery time resId rest mapping req lt
      st s2 hq]
    simp only []
    subst hs2
    apply ih
    · exact Or.inr (by simp)
    · intro r hr
      have := h1 r hr
      simp only [List.map_cons, List.mem_cons] at this
      rcases this with h | h
      · subst h
        exact absurd hts hr
      · exact h
    · exact h2
    · exact h3
  | case3 time resId rest mapping req lt st batch s2 hq hb ha =>
    intro h0 h1 h2 h3
    have hts : st.getD resId [] = batch := by
      rw [← staticQuery_fst st resId, hq]
    have hfresh : ∀ t ∈ batch, t < mapping.length ∧ mapping.getD t 0 = -1 :=
      fun t ht => h3 t (mem_getD_mem_flatten st resId t (hts ▸ ht))
    have hndb : batch.Nodup := by
      refine List.Nodup.sublist ?_ h2
      rw [← hts]
      exact List.sublist_flatten_of_mem
        (getD_mem_of_lt st resId (getD_ne_nil_lt st resId (by rw [hts]; exact hb)))
    obtain ⟨m2, x, hok⟩ := assignBatch_ok_of_fresh tasks resId batch mapping 0
      hfresh hndb
    rw [ha] at hok
    simp at hok
  | case4 time resId rest mapping req lt st batch s2 hq hb ha =>
    intro h0 h1 h2 h3
    have hts : st.getD resId [] = batch := by
      rw [← staticQuery_fst st resId, hq]
    have hfresh : ∀ t ∈ batch, t < mapping.length ∧ mapping.getD t 0 = -1 :=
      fun t ht => h3 t (mem_getD_mem_flatten st resId t (hts ▸ ht))
    have hndb : batch.Nodup := by
      refine List.Nodup.sublist ?_ h2
      rw [← hts]
      exact List.sublist_flatten_of_mem
        (getD_mem_of_lt st resId (getD_ne_nil_lt st resId (by rw [hts]; exact hb)))
    obtain ⟨m2, x, hok⟩ := assignBatch_ok_of_fresh tasks resId batch mapping 0
      hfresh hndb
    rw [ha] at hok
    simp at hok
  | case5 time resId rest mapping req lt st batch s2 hq hb mapping2 extra ha ih =>
    intro h0 h1 h2 h3
    have hts : st.getD resId [] = batch := by
      rw [← staticQuery_fst st resId, hq]
    have hrid : resId < st.length :=
      getD_ne_nil_lt st resId (by rw [hts]; exact hb)
    have hs2 : s2 = st.set resId [] := by
      have h4 := hq
      simp only [staticQuery] at h4
      rw [hts] at h4
      rw [if_neg hb] at h4
      exact ((Prod.mk.injEq _ _ _ _).mp h4.symm).2
    rw [simLoop_cons_ok tasks staticQuery time resId rest mapping req lt
      st s2 batch mapping2 extra hq hb ha]
    simp only []
    subst hs2
    obtain ⟨hlen2, hpres⟩ := assignBatch_ok_post tasks resId batch mapping 0
      mapping2 extra ha
    have hA : List.orderedInsert pairLe (time + extra, resId) rest ≠ [] ∨
        (some time : Option Int) ≠ none := Or.inl (orderedInsert_ne_nil _ _)
    have hB : ∀ r, (st.set resId []).getD r [] ≠ [] →
        r ∈ (List.orderedInsert pairLe (time + extra, resId) rest).map
          Prod.snd := by
      intro r hr
      have hrne : r ≠ resId := by
        intro hh
        subst hh
        rw [List.getD_eq_getElem?_getD, List.getElem?_set_self'] at hr
        rw [List.getElem?_eq_getElem hrid] at hr
        simp at hr
      rw [List.getD_eq_getElem?_getD, List.getElem?_set_ne
        (fun hh => hrne hh.symm), ← List.getD_eq_getElem?_getD] at hr
      have := h1 r hr
      simp only [List.map_cons, List.mem_cons] at this
      rcases this with h | h
      · exact absurd h hrne
      · rw [mem_map_snd_orderedInsert]
        exact Or.inr h
    have hC : (st.set resId []).flatten.Nodup :=
      List.Nodup.sublist (flatten_set_nil_sublist st resId) h2
    have hD : ∀ i ∈ (st.set resId []).flatten,
        i < mapping2.length ∧ mapping2.getD i 0 = -1 := by
      intro i hi
      have himem : i ∈ st.flatten := (flatten_set_nil_sublist st resId).mem hi
      have hnob : i ∉ batch := by
        rw [← hts]
        exact mem_flatten_set_nil_not_mem st resId i h2 hi
      have := h3 i himem
      rw [hlen2, hpres i hnob]
      exact this
    obtain ⟨m, T, cc, hsub⟩ := ih hA hB hC hD
    refine ⟨m, T, cc, ?_⟩
    rw [hsub]
    have hcnt := countP_set_nil st resId hrid (by rw [hts]; exact hb)
    have hp : ((req + 1 : Nat) : Int) +
        ((st.set resId []).countP (fun l => !l.isEmpty) : Int) =
        (req : Int) + (st.countP (fun l => !l.isEmpty) : Int) := by omega
    rw [hp]

theorem compactGroups_countP (psize : Nat) :
    ∀ (k task leftover : Nat),
      (compactGroups psize k task leftover).countP (fun l => !l.isEmpty) =
        if psize = 0 then min k leftover else k := by
  intro k
  induction k with
  | zero =>
    intro task leftover
    simp only [compactGroups, List.countP_nil]
    split <;> simp
  | succ n ih =>
    intro task leftover
    simp only [compactGroups, List.countP_cons]
    rw [ih]
    by_cases hp : psize = 0
    · subst hp
      rcases leftover with _ | l
      · simp
      · simp [Nat.succ_min_succ]
    · have hgt : 0 < psize := Nat.pos_of_ne_zero hp
      rcases leftover with _ | l
      · simp only [Nat.lt_irrefl, if_false, hp]
        have : (!((List.range psize).map (fun i => task + i)).isEmpty) = true := by
          simp [List.isEmpty_iff]
          omega
        simp [this]
      · simp only [Nat.zero_lt_succ, if_true, hp, if_false]
        have : (!((List.range (psize + 1)).map (fun i => task + i)).isEmpty) = true := by
          simp [List.isEmpty_iff]
        simp [this]

theorem replicate_getD_neg_one (n i : Nat) (h : i < n) :
    (List.replicate n (-1 : Int)).getD i 0 = -1 := by
  induction n generalizing i with
  | zero => omega
  | succ k ih =>
    cases i with
    | zero => simp [List.replicate]
    | succ j =>
      simp only [List.replicate, List.getD_cons_succ]
      exact ih j (by omega)

theorem openMPStaticInit_zero_flatten (tasks : List Int) (R : Nat)
    (hR : 1 ≤ R) :
    (openMPStaticInit tasks R 0).flatten = List.range tasks.length := by
  have hinit : openMPStaticInit tasks R 0 =
      compactGroups (tasks.length / R) R 0 (tasks.length % R) := by
    simp [openMPStaticInit]
  rw [hinit, compactGroups_flatten]
  have hmin : R * (tasks.length / R) + min R (tasks.length % R) =
      tasks.length := by
    have hmod : tasks.length % R < R := Nat.mod_lt _ (by omega)
    rw [Nat.min_eq_right (Nat.le_of_lt hmod)]
    exact Nat.div_add_mod tasks.length R
  rw [hmin]
  simp

theorem countP_range_lt (R K : Nat) :
    (List.range R).countP (fun r => decide (r < K)) = min R K := by
  induction R with
  | zero => simp
  | succ n ih =>
    rw [List.range_succ, List.countP_append, ih]
    by_cases h : n < K
    · simp only [List.countP_cons, List.countP_nil]
      simp [h]
      omega
    · simp only [List.countP_cons, List.countP_nil]
      simp [h]
      omega

/-- The table the round-robin construction produces: resource r receives
the tasks whose chunk number t / c falls on r modulo R, in task order. -/
def rrTable (N R c : Nat) : List (List Nat) :=
  (List.range R).map (fun r => (List.range N).filter (fun t => t / c % R == r))

theorem rrTable_getD (N R c r : Nat) (hr : r < R) :
    (rrTable N R c).getD r [] =
      (List.range N).filter (fun t => t / c % R == r) := by
  unfold rrTable
  rw [List.getD_eq_getElem?_getD, List.getElem?_map, List.getElem?_range hr]
  rfl

theorem succ_div_full (N c : Nat) (hc : 0 < c) (h : N % c + 1 = c) :
    (N + 1) / c = N / c + 1 ∧ (N + 1) % c = 0 := by
  have hdm := Nat.div_add_mod N c
  have hN1 : N + 1 = c * (N / c + 1) := by
    rw [Nat.mul_succ]
    omega
  rw [hN1, Nat.mul_div_cancel_left _ hc, Nat.mul_mod_right]
  exact ⟨rfl, rfl⟩

theorem succ_div_partial (N c : Nat) (hc : 0 < c) (h : N % c + 1 ≠ c) :
    (N + 1) / c = N / c ∧ (N + 1) % c = N % c + 1 := by
  have hdm := Nat.div_add_mod N c
  have hmod : N % c < c := Nat.mod_lt _ hc
  have harr : N + 1 = (N % c + 1) + c * (N / c) := by omega
  constructor
  · rw [harr, Nat.add_mul_div_left _ _ hc]
    have hz : (N % c + 1) / c = 0 := (Nat.div_eq_zero_iff hc).mpr (by omega)
    omega
  · rw [harr, Nat.add_mul_mod_self_left]
    exact Nat.mod_eq_of_lt (by omega)

theorem rrTable_set (N R c : Nat) (hR : 0 < R) :
    (rrTable N R c).set (N / c % R)
        ((rrTable N R c).getD (N / c % R) [] ++ [N]) = rrTable (N + 1) R c := by
  have hres : N / c % R < R := Nat.mod_lt _ hR
  apply List.ext_getElem
  · simp [rrTable]
  · intro i h1 h2
    have hiR : i < R := by simpa [rrTable] using h2
    rw [List.getElem_set]
    have hrhs : (rrTable (N + 1) R c)[i] =
        (List.range (N + 1)).filter (fun t => t / c % R == i) := by
      unfold rrTable
      rw [List.getElem_map, List.getElem_range]
    rw [hrhs, List.range_succ, List.filter_append]
    by_cases hir : N / c % R = i
    · rw [if_pos hir, rrTable_getD N R c _ hres, hir]
      have hN : ((N / c % R == i) : Bool) = true := by simp [hir]
      simp only [List.filter_cons, hN, if_true, List.filter_nil]
    · rw [if_neg hir]
      have hN : ((N / c % R == i) : Bool) = false := by simp [hir]
      simp only [List.filter_cons, hN, List.filter_nil, List.append_nil]
      unfold rrTable
      rw [List.getElem_map, List.getElem_range]
      simp

theorem rr_foldl_char (R c : Nat) (hc : 0 < c) (hR : 0 < R) :
    ∀ N : Nat, (List.range N).foldl (rrStep R c) (List.replicate R [], 0, 0) =
      (rrTable N R c, N / c % R, N % c) := by
  intro N
  induction N with
  | zero =>
    simp only [List.range_zero, List.foldl_nil, Nat.zero_div, Nat.zero_mod]
    have : rrTable 0 R c = List.replicate R [] := by
      simp [rrTable, List.eq_replicate_iff]
    rw [this]
  | succ n ih =>
    rw [List.range_succ, List.foldl_append, ih]
    simp only [List.foldl_cons, List.foldl_nil]
    unfold rrStep
    simp only []
    by_cases hfull : n % c + 1 = c
    · rw [if_pos hfull]
      obtain ⟨hdiv, hmod⟩ := succ_div_full n c hc hfull
      rw [rrTable_set n R c hR, hdiv, hmod, Nat.mod_add_mod]
    · rw [if_neg hfull]
      obtain ⟨hdiv, hmod⟩ := succ_div_partial n c hc hfull
      rw [rrTable_set n R c hR, hdiv, hmod]

theorem rr_nonempty_iff (N R c r : Nat) (hc : 0 < c) (hr : r < R) :
    (∃ t, t < N ∧ t / c % R = r) ↔ r < (N + c - 1) / c := by
  constructor
  · rintro ⟨t, htN, hteq⟩
    have h1 : r ≤ t / c := by rw [← hteq]; exact Nat.mod_le _ _
    have h2 : r * c ≤ t / c * c := Nat.mul_le_mul_right c h1
    have h3 : t / c * c ≤ t := Nat.div_mul_le_self t c
    rw [Nat.lt_iff_add_one_le, Nat.le_div_iff_mul_le hc, Nat.succ_mul]
    omega
  · intro h
    rw [Nat.lt_iff_add_one_le, Nat.le_div_iff_mul_le hc, Nat.succ_mul] at h
    have h4 : r * c < N := by omega
    refine ⟨r * c, h4, ?_⟩
    rw [Nat.mul_div_cancel r hc]
    exact Nat.mod_eq_of_lt hr

theorem rrTable_countP (N R c : Nat) (hc : 0 < c) :
    (rrTable N R c).countP (fun l => !l.isEmpty) =
      min R ((N + c - 1) / c) := by
  unfold rrTable
  rw [List.countP_map]
  rw [List.countP_congr (q := fun r => decide (r < (N + c - 1) / c)) ?_]
  · exact countP_range_lt R _
  · intro r hrm
    rw [List.mem_range] at hrm
    simp only [Function.comp, Bool.not_eq_true', List.isEmpty_eq_false,
      Ne, List.filter_eq_nil_iff, decide_eq_true_iff]
    push_neg
    simp only [List.mem_range, beq_iff_eq]
    exact rr_nonempty_iff N R c r hc hrm

theorem rrTable_flatten_nodup (N R c : Nat) :
    (rrTable N R c).flatten.Nodup := by
  rw [List.nodup_flatten]
  constructor
  · intro l hl
    unfold rrTable at hl
    rw [List.mem_map] at hl
    obtain ⟨r, _, rfl⟩ := hl
    exact (List.nodup_range N).filter _
  · unfold rrTable
    rw [List.pairwise_map]
    refine (List.pairwise_lt_range R).imp ?_
    intro a b hab x hxa hxb
    rw [List.mem_filter] at hxa hxb
    have h1 := hxa.2
    have h2 := hxb.2
    simp only [beq_iff_eq] at h1 h2
    omega

theorem rrTable_flatten_lt (N R c : Nat) :
    ∀ i ∈ (rrTable N R c).flatten, i < N := by
  intro i hi
  rw [List.mem_flatten] at hi
  obtain ⟨l, hl, hil⟩ := hi
  unfold rrTable at hl
  rw [List.mem_map] at hl
  obtain ⟨r, _, rfl⟩ := hl
  rw [List.mem_filter] at hil
  exact List.mem_range.mp hil.1

theorem openMPStaticInit_zero_eq (tasks : List Int) (R : Nat) :
    openMPStaticInit tasks R 0 =
      compactGroups (tasks.length / R) R 0 (tasks.length % R) := by
  simp [openMPStaticInit]

theorem openMPStaticInit_pos_eq (tasks : List Int) (R c : Nat) (hc : 0 < c)
    (hR : 0 < R) :
    openMPStaticInit tasks R c = rrTable tasks.length R c := by
  simp only [openMPStaticInit, if_neg (by omega : ¬(c = 0))]
  rw [rr_foldl_char R c hc hR tasks.length]

/-- C4 (amended): for every load list and R >= 1, the successful-query
count of a run equals the number of resources whose precomputed list is
nonempty: min(R, N) for the Contiguous Block policy (chunk 0) and
min(R, ceil(N / c)) for the Chunked Round Robin policy (chunk c > 0); it
equals R exactly when N >= R, resp. ceil(N / c) >= R. -/
theorem C4_amended_query_counts (tasks : List Int) (R : Nat) (hR : 1 ≤ R) :
    (∃ m T cc, simulateStatic tasks R 0 =
        some (m, T, ((min R tasks.length : Nat) : Int), cc)) ∧
      ∀ c, 0 < c → ∃ m T cc, simulateStatic tasks R c =
        some (m, T, ((min R ((tasks.length + c - 1) / c) : Nat) : Int), cc) := by
  have hpool_ne : initPool R ≠ [] := initPool_ne_nil R hR
  have hids : (initPool R).map Prod.snd = List.range R := initPool_map_snd R
  constructor
  · have hlen : (openMPStaticInit tasks R 0).length = R := by
      rw [openMPStaticInit_zero_eq]
      exact compactGroups_length _ R 0 _
    have hflat : (openMPStaticInit tasks R 0).flatten =
        List.range tasks.length := openMPStaticInit_zero_flatten tasks R hR
    have h1 : ∀ r, (openMPStaticInit tasks R 0).getD r [] ≠ [] →
        r ∈ (initPool R).map Prod.snd := by
      intro r hr
      rw [hids, List.mem_range]
      have := getD_ne_nil_lt _ r hr
      omega
    have h2 : (openMPStaticInit tasks R 0).flatten.Nodup := by
      rw [hflat]
      exact List.nodup_range _
    have h3 : ∀ i ∈ (openMPStaticInit tasks R 0).flatten,
        i < (List.replicate tasks.length (-1 : Int)).length ∧
          (List.replicate tasks.length (-1 : Int)).getD i 0 = -1 := by
      intro i hi
      rw [hflat, List.mem_range] at hi
      exact ⟨by simp [hi], replicate_getD_neg_one _ _ hi⟩
    obtain ⟨m, T, cc, hrun⟩ := simLoop_static_run tasks (initPool R)
      (List.replicate tasks.length (-1)) 0 none (openMPStaticInit tasks R 0)
      (Or.inl hpool_ne) h1 h2 h3
    refine ⟨m, T, cc, ?_⟩
    have hcount : (openMPStaticInit tasks R 0).countP (fun l => !l.isEmpty) =
        min R tasks.length := by
      rw [openMPStaticInit_zero_eq, compactGroups_countP]
      by_cases hz : tasks.length / R = 0
      · have hlt : tasks.length < R := (Nat.div_eq_zero_iff (by omega)).mp hz
        rw [if_pos hz, Nat.mod_eq_of_lt hlt]
      · rw [if_neg hz]
        have hge : R ≤ tasks.length := by
          by_contra hlt2
          exact hz ((Nat.div_eq_zero_iff (by omega)).mpr (by omega))
        rw [Nat.min_eq_left hge]
    simp only [simulateStatic, simulate, simulateRun]
    rw [hrun, hcount]
    simp
  · intro c hc
    have hinit := openMPStaticInit_pos_eq tasks R c hc (by omega)
    have h1 : ∀ r, (openMPStaticInit tasks R c).getD r [] ≠ [] →
        r ∈ (initPool R).map Prod.snd := by
      intro r hr
      rw [hids, List.mem_range]
      have hlt := getD_ne_nil_lt _ r hr
      rw [hinit] at hlt
      simp only [rrTable, List.length_map, List.length_range] at hlt
      exact hlt
    have h2 : (openMPStaticInit tasks R c).flatten.Nodup := by
      rw [hinit]
      exact rrTable_flatten_nodup _ _ _
    have h3 : ∀ i ∈ (openMPStaticInit tasks R c).flatten,
        i < (List.replicate tasks.length (-1 : Int)).length ∧
          (List.replicate tasks.length (-1 : Int)).getD i 0 = -1 := by
      intro i hi
      rw [hinit] at hi
      have := rrTable_flatten_lt tasks.length R c i hi
      exact ⟨by simp [this], replicate_getD_neg_one _ _ this⟩
    obtain ⟨m, T, cc, hrun⟩ := simLoop_static_run tasks (initPool R)
      (List.replicate tasks.length (-1)) 0 none (openMPStaticInit tasks R c)
      (Or.inl hpool_ne) h1 h2 h3
    refine ⟨m, T, cc, ?_⟩
    have hcount : (openMPStaticInit tasks R c).countP (fun l => !l.isEmpty) =
        min R ((tasks.length + c - 1) / c) := by
      rw [hinit]
      exact rrTable_countP tasks.length R c hc
    simp only [simulateStatic, simulate, simulateRun]
    rw [hrun, hcount]
    simp

theorem C4_amended_query_counts_witness :
    (∃ m T cc, simulateStatic [(5 : Int), 7] 3 0 =
        some (m, T, ((min 3 2 : Nat) : Int), cc)) ∧
      ∀ c, 0 < c → ∃ m T cc, simulateStatic [(5 : Int), 7] 3 c =
        some (m, T, ((min 3 ((2 + c - 1) / c) : Nat) : Int), cc) :=
  C4_amended_query_counts [(5 : Int), 7] 3 (by decide)
